import Mathlib

/-!
Shallow embedding of the transactional persistence layer of the ckb store
(`src/store/src/transaction.rs`), the `LoadScriptHash` syscall
(`src/script/src/syscalls/load_script_hash.rs`) and the `InternalError`
display (`src/error/src/internal.rs`).

Conventions of the embedding:
* 32-byte hashes (`H256`, `Byte32` keys) are modelled as `Nat`; the codecs
  are deterministic, total and invertible per the spec, so an encoded record
  is modelled as the typed record itself (byte-identical iff record-equal).
* The RocksDB transaction (staged batch + read-through of own writes) is a
  total function `Store := Col → Key → Option Value`; `put`/`delete` update
  it pointwise.  Engine-level I/O failure is out of scope (the source
  `expect`s it away / merely propagates it), so the operations are total.
* Rust `HashMap`/`HashSet` iteration order is unspecified; the loops of
  `attach_block_cell` / `detach_block_cell` touch each key once, so the
  embedding iterates the keys in first-occurrence order
  (`List.dedup` keeps the first occurrence).
-/

set_option maxHeartbeats 1000000

namespace Ckb

/-- The store columns used by `transaction.rs`. -/
inductive Col
  | COLUMN_BLOCK_HEADER
  | COLUMN_BLOCK_BODY
  | COLUMN_BLOCK_UNCLE
  | COLUMN_BLOCK_PROPOSAL_IDS
  | COLUMN_BLOCK_EXT
  | COLUMN_BLOCK_EPOCH
  | COLUMN_CELL_META
  | COLUMN_CELL_SET
  | COLUMN_EPOCH
  | COLUMN_INDEX
  | COLUMN_META
  | COLUMN_TRANSACTION_INFO
  | COLUMN_UNCLES
  deriving DecidableEq, Repr

open Col

/-- Byte-string keys, by shape: 32-byte hash keys, 8-byte little-endian
number keys, `CellKey` (tx hash ‖ output index) keys, and the two fixed
meta keys.  Distinct shapes are distinct byte strings in the source
(32 vs 8 bytes vs 36 bytes vs fixed tags). -/
inductive Key
  | hash (h : Nat)
  | num (n : Nat)
  | cell (h : Nat) (i : Nat)
  | meta_tip
  | meta_epoch
  deriving DecidableEq, Repr

/-- `ckb_core::extras::TransactionInfo`. -/
structure TransactionInfo where
  block_hash : Nat
  block_number : Nat
  block_epoch : Nat
  index : Nat
  deriving DecidableEq, Repr

/-- Modelled from the spec: `ckb_core::transaction_meta::TransactionMeta`
(not under `src/`): creation block number/epoch/hash, a cellbase flag and a
bit-vector of length = output count; bit `i` = `true` means output `i` is
dead (spent).  `set_dead`/`unset_dead` beyond the bitmap are no-ops and
`is_dead` beyond the bitmap is `none` (the `None` arm matched by `cell()`). -/
structure TransactionMeta where
  block_number : Nat
  epoch : Nat
  block_hash : Nat
  cellbase : Bool
  dead : List Bool
  deriving DecidableEq, Repr

namespace TransactionMeta

def new (number : Nat) (epoch : Nat) (hash : Nat) (outputs_count : Nat)
    (all_dead : Bool) : TransactionMeta :=
  { block_number := number, epoch := epoch, block_hash := hash,
    cellbase := false, dead := List.replicate outputs_count all_dead }

def new_cellbase (number : Nat) (epoch : Nat) (hash : Nat) (outputs_count : Nat)
    (all_dead : Bool) : TransactionMeta :=
  { block_number := number, epoch := epoch, block_hash := hash,
    cellbase := true, dead := List.replicate outputs_count all_dead }

def set_dead (m : TransactionMeta) (i : Nat) : TransactionMeta :=
  { m with dead := m.dead.set i true }

def unset_dead (m : TransactionMeta) (i : Nat) : TransactionMeta :=
  { m with dead := m.dead.set i false }

def is_dead (m : TransactionMeta) (i : Nat) : Option Bool :=
  m.dead.get? i

end TransactionMeta

/-- Stored (capacity, data hash) pair built by `attach_block` for each
output, and returned by `get_cell_meta`. -/
structure CellMetaData where
  capacity : Nat
  data_hash : Nat
  deriving DecidableEq, Repr

/-- `ckb_core::extras::EpochExt`, with the consensus parameters opaque. -/
structure EpochExt where
  number : Nat
  payload : Nat
  deriving DecidableEq, Repr

/-- `ckb_core::header::Header`; the hash is deterministic in the header so
we carry it as a field. -/
structure Header where
  hash : Nat
  number : Nat
  epoch : Nat
  deriving DecidableEq, Repr

/-- `ckb_core::transaction::CellOutPoint`. -/
structure CellOutPoint where
  tx_hash : Nat
  index : Nat
  deriving DecidableEq, Repr

/-- `ckb_core::transaction::OutPoint`: optional block hash plus optional
cell reference. -/
structure OutPoint where
  block_hash : Option Nat
  cell : Option CellOutPoint
  deriving DecidableEq, Repr

/-- A transaction output, reduced to the fields `attach_block` stores. -/
structure Output where
  capacity : Nat
  data_hash : Nat
  deriving DecidableEq, Repr

/-- `ckb_core::transaction::Transaction`, reduced to what `transaction.rs`
reads: hash, the cell out-points of its inputs (`input_pts_iter`), outputs,
and the cellbase flag. -/
structure Transaction where
  hash : Nat
  inputs : List OutPoint
  outputs : List Output
  cellbase : Bool
  deriving DecidableEq, Repr

def Transaction.is_cellbase (tx : Transaction) : Bool := tx.cellbase

/-- `ckb_core::block::Block`, reduced to what `transaction.rs` reads. -/
structure Block where
  header : Header
  transactions : List Transaction
  uncles : List Nat
  proposals : List Nat
  deriving DecidableEq, Repr

/-- Encoded records: the codecs are opaque bijections, so a stored byte
string is modelled as the typed record it encodes. -/
inductive Value
  | vHeader (h : Header)
  | vBody (txs : List Transaction)
  | vUncles (us : List Nat)
  | vProposals (ps : List Nat)
  | vExt (e : Nat)
  | vInfo (i : TransactionInfo)
  | vCellMeta (d : CellMetaData)
  | vTxMeta (m : TransactionMeta)
  | vEpoch (e : EpochExt)
  | vHash (h : Nat)
  | vNum (n : Nat)
  | vTip (t : Nat)
  | vEmpty
  deriving DecidableEq, Repr

/-- The staged view of one `StoreTransaction`: the batch's writes read
through (`RocksDBTransaction::get` sees own puts/deletes). -/
def Store := Col → Key → Option Value

/-- `insert_raw`: stage a put. -/
def insert_raw (s : Store) (c : Col) (k : Key) (v : Value) : Store :=
  fun c' k' => if c' = c ∧ k' = k then some v else s c' k'

/-- `delete`: stage a delete. -/
def deleteRaw (s : Store) (c : Col) (k : Key) : Store :=
  fun c' k' => if c' = c ∧ k' = k then none else s c' k'

/-- The in-memory Cell-Set Index (`im::hashmap::HashMap<H256,
TransactionMeta>`), as a total lookup function. -/
def CellSet := Nat → Option TransactionMeta

def insertCS (cs : CellSet) (h : Nat) (m : TransactionMeta) : CellSet :=
  fun h' => if h' = h then some m else cs h'

def removeCS (cs : CellSet) (h : Nat) : CellSet :=
  fun h' => if h' = h then none else cs h'

/-! ### Store transaction operations (`impl StoreTransaction`) -/

/-- `insert_block`: stages Header, Uncles, Proposal ids and Body under the
block hash. -/
def insert_block (s : Store) (block : Block) : Store :=
  let hash := block.header.hash
  let s := insert_raw s COLUMN_BLOCK_HEADER (Key.hash hash) (Value.vHeader block.header)
  let s := insert_raw s COLUMN_BLOCK_UNCLE (Key.hash hash) (Value.vUncles block.uncles)
  let s := insert_raw s COLUMN_BLOCK_PROPOSAL_IDS (Key.hash hash) (Value.vProposals block.proposals)
  insert_raw s COLUMN_BLOCK_BODY (Key.hash hash) (Value.vBody block.transactions)

/-- `insert_block_ext`. -/
def insert_block_ext (s : Store) (block_hash : Nat) (ext : Nat) : Store :=
  insert_raw s COLUMN_BLOCK_EXT (Key.hash block_hash) (Value.vExt ext)

/-- Inner loop of `attach_block`: `for (cell_index, output) in
tx.outputs().iter().enumerate()` staging one Cell Meta per output. -/
def attachTxOutputs (s : Store) (tx_hash : Nat) (outs : List Output)
    (cell_index : Nat) : Store :=
  match outs with
  | [] => s
  | output :: rest =>
      let s := insert_raw s COLUMN_CELL_META (Key.cell tx_hash cell_index)
        (Value.vCellMeta ⟨output.capacity, output.data_hash⟩)
      attachTxOutputs s tx_hash rest (cell_index + 1)

/-- Outer loop of `attach_block`: `for (index, tx) in
block.transactions().iter().enumerate()` staging the Transaction Info and
the Cell Metas. -/
def attachTxs (s : Store) (block : Block) (txs : List Transaction)
    (index : Nat) : Store :=
  match txs with
  | [] => s
  | tx :: rest =>
      let info : TransactionInfo :=
        { block_hash := block.header.hash, block_number := block.header.number,
          block_epoch := block.header.epoch, index := index }
      let s := insert_raw s COLUMN_TRANSACTION_INFO (Key.hash tx.hash) (Value.vInfo info)
      let s := attachTxOutputs s tx.hash tx.outputs 0
      attachTxs s block rest (index + 1)

/-- Uncle loop of `attach_block`: one empty-valued presence marker per
uncle hash. -/
def attachUncles (s : Store) (us : List Nat) : Store :=
  match us with
  | [] => s
  | u :: rest => attachUncles (insert_raw s COLUMN_UNCLES (Key.hash u) Value.vEmpty) rest

/-- `attach_block`: Transaction Infos and Cell Metas for every transaction,
the number↔hash index pair, and the uncle presence markers. -/
def attach_block (s : Store) (block : Block) : Store :=
  let s := attachTxs s block block.transactions 0
  let s := insert_raw s COLUMN_INDEX (Key.num block.header.number)
    (Value.vHash block.header.hash)
  let s := attachUncles s block.uncles
  insert_raw s COLUMN_INDEX (Key.hash block.header.hash)
    (Value.vNum block.header.number)

/-- Loops of `detach_block` over the block's transactions: delete the
Transaction Info and every Cell Meta key `0..outputs.len()`. -/
def detachTxOutputs (s : Store) (tx_hash : Nat) (n : Nat) (i : Nat) : Store :=
  match n with
  | 0 => s
  | Nat.succ n' =>
      detachTxOutputs (deleteRaw s COLUMN_CELL_META (Key.cell tx_hash i)) tx_hash n' (i + 1)

def detachTxs (s : Store) (txs : List Transaction) : Store :=
  match txs with
  | [] => s
  | tx :: rest =>
      let s := deleteRaw s COLUMN_TRANSACTION_INFO (Key.hash tx.hash)
      let s := detachTxOutputs s tx.hash tx.outputs.length 0
      detachTxs s rest

def detachUncles (s : Store) (us : List Nat) : Store :=
  match us with
  | [] => s
  | u :: rest => detachUncles (deleteRaw s COLUMN_UNCLES (Key.hash u)) rest

/-- `detach_block`: deletes exactly the keys `attach_block` writes. -/
def detach_block (s : Store) (block : Block) : Store :=
  let s := detachTxs s block.transactions
  let s := detachUncles s block.uncles
  let s := deleteRaw s COLUMN_INDEX (Key.num block.header.number)
  deleteRaw s COLUMN_INDEX (Key.hash block.header.hash)

/-- `update_cell_set`: stage the encoded Transaction Meta under the
transaction hash in the cell-set column. -/
def update_cell_set (s : Store) (tx_hash : Nat) (meta : TransactionMeta) : Store :=
  insert_raw s COLUMN_CELL_SET (Key.hash tx_hash) (Value.vTxMeta meta)

/-- `delete_cell_set`. -/
def delete_cell_set (s : Store) (tx_hash : Nat) : Store :=
  deleteRaw s COLUMN_CELL_SET (Key.hash tx_hash)

/-! ### `attach_block_cell` / `detach_block_cell`

Both operations first group the block's cell inputs by referenced
transaction hash (the `new_inputs` / `old_inputs` `HashMap<H256,Vec<u32>>`
built by pushing in block order), and collect the block's own transaction
hashes (`new_tx_metas` keys / the `old_outputs` `HashSet`). -/

/-- Every cell input reference of the block, in block order
(`input_pts_iter()` filtered to `Some(cell)`). -/
def blockCellInputs (block : Block) : List CellOutPoint :=
  block.transactions.flatMap (fun tx => tx.inputs.filterMap OutPoint.cell)

/-- The `Vec<u32>` grouped under hash `h` in `new_inputs` / `old_inputs`:
the indices spent from `h`, in push (block) order. -/
def blockInputIndices (block : Block) (h : Nat) : List Nat :=
  (blockCellInputs block).filterMap
    (fun c => if c.tx_hash = h then some c.index else none)

/-- The key set of `new_inputs` / `old_inputs`, in first-occurrence order. -/
def blockInputKeys (block : Block) : List Nat :=
  ((blockCellInputs block).map CellOutPoint.tx_hash).dedup

/-- The block's transaction hashes: key set of `new_tx_metas` and content
of `old_outputs`. -/
def txHashes (block : Block) : List Nat :=
  block.transactions.map Transaction.hash

def txHashKeys (block : Block) : List Nat :=
  (txHashes block).dedup

/-- The fresh Transaction Meta `attach_block_cell` builds for one
transaction (cellbase variant if applicable), all bits live. -/
def txMetaFor (block : Block) (tx : Transaction) : TransactionMeta :=
  if tx.is_cellbase then
    TransactionMeta.new_cellbase block.header.number block.header.epoch
      block.header.hash tx.outputs.length false
  else
    TransactionMeta.new block.header.number block.header.epoch
      block.header.hash tx.outputs.length false

/-- Lookup in `new_tx_metas` after the build loop: a later duplicate hash
overwrites on `HashMap::insert`, so the last matching transaction wins. -/
def newTxMeta (block : Block) (h : Nat) : Option TransactionMeta :=
  (block.transactions.reverse.find? (fun tx => tx.hash = h)).map (txMetaFor block)

def setDeadList (m : TransactionMeta) (l : List Nat) : TransactionMeta :=
  l.foldl TransactionMeta.set_dead m

def unsetDeadList (m : TransactionMeta) (l : List Nat) : TransactionMeta :=
  l.foldl TransactionMeta.unset_dead m

/-- The value of `new_tx_metas` at `h` after the `new_inputs` loop: inputs
spending a transaction of this same block mutate the fresh meta in place
(`new_tx_metas.get_mut`). -/
def attachedNewMeta (block : Block) (h : Nat) : Option TransactionMeta :=
  (newTxMeta block h).map (fun m => setDeadList m (blockInputIndices block h))

/-- The `for (tx_hash, meta) in new_inputs` loop of `attach_block_cell`,
restricted to its effect: hashes with a fresh meta are handled by mutating
`new_tx_metas` (folded into `attachedNewMeta`); otherwise the meta is taken
from the cell set if cached there, its spent bits are set, and it is staged
and written back.  A hash absent from the cell set is skipped (there is no
`else` branch in the source). -/
def acbPhase2 (block : Block) : List Nat → Store × CellSet → Store × CellSet
  | [], acc => acc
  | h :: rest, (s, cs) =>
      if (newTxMeta block h).isSome then acbPhase2 block rest (s, cs)
      else
        match cs h with
        | some m =>
            let m' := setDeadList m (blockInputIndices block h)
            acbPhase2 block rest (update_cell_set s h m', insertCS cs h m')
        | none => acbPhase2 block rest (s, cs)

/-- The `for (tx_hash, meta) in new_tx_metas` loop of `attach_block_cell`:
stage every fresh meta and insert it into the cell set. -/
def acbPhase3 (block : Block) : List Nat → Store × CellSet → Store × CellSet
  | [], acc => acc
  | h :: rest, (s, cs) =>
      match attachedNewMeta block h with
      | some m => acbPhase3 block rest (update_cell_set s h m, insertCS cs h m)
      | none => acbPhase3 block rest (s, cs)

/-- `attach_block_cell`. -/
def attach_block_cell (s : Store) (cs : CellSet) (block : Block) :
    Store × CellSet :=
  acbPhase3 block (txHashKeys block)
    (acbPhase2 block (blockInputKeys block) (s, cs))

/-- The `for (tx_hash, meta) in old_inputs` loop of `detach_block_cell`:
for spent transactions not created by this block, clear the spent bits on
the cached meta, stage it and write it back; a hash absent from the cell
set is skipped. -/
def dbcPhase1 (block : Block) : List Nat → Store × CellSet → Store × CellSet
  | [], acc => acc
  | h :: rest, (s, cs) =>
      if h ∈ txHashes block then dbcPhase1 block rest (s, cs)
      else
        match cs h with
        | some m =>
            let m' := unsetDeadList m (blockInputIndices block h)
            dbcPhase1 block rest (update_cell_set s h m', insertCS cs h m')
        | none => dbcPhase1 block rest (s, cs)

/-- The `for tx_hash in old_outputs` loop of `detach_block_cell`: delete
every meta created by this block from storage and from the index. -/
def dbcPhase2 : List Nat → Store × CellSet → Store × CellSet
  | [], acc => acc
  | h :: rest, (s, cs) => dbcPhase2 rest (delete_cell_set s h, removeCS cs h)

/-- `detach_block_cell`. -/
def detach_block_cell (s : Store) (cs : CellSet) (block : Block) :
    Store × CellSet :=
  dbcPhase2 (txHashKeys block)
    (dbcPhase1 block (blockInputKeys block) (s, cs))

/-! ### Tip / epoch writes -/

def insert_tip (s : Store) (tip : Nat) : Store :=
  insert_raw s COLUMN_META Key.meta_tip (Value.vTip tip)

def insert_block_epoch_index (s : Store) (block_hash : Nat) (epoch_hash : Nat) : Store :=
  insert_raw s COLUMN_BLOCK_EPOCH (Key.hash block_hash) (Value.vHash epoch_hash)

/-- `insert_epoch_ext`: the encoded epoch under its identifying hash, and
the hash under the epoch number (the 8-byte number key and 32-byte hash key
never collide). -/
def insert_epoch_ext (s : Store) (hash : Nat) (epoch : EpochExt) : Store :=
  let s := insert_raw s COLUMN_EPOCH (Key.hash hash) (Value.vEpoch epoch)
  insert_raw s COLUMN_EPOCH (Key.num epoch.number) (Value.vHash hash)

def insert_current_epoch_ext (s : Store) (epoch : EpochExt) : Store :=
  insert_raw s COLUMN_META Key.meta_epoch (Value.vEpoch epoch)

/-! ### Read-only accessors

`store.rs` (the `ChainStore` accessors) is not under `src/`; the spec
implies them as "read-only accessors implied by the provider resolution
order": each reads one column by the documented key and decodes. -/

/-- Modelled from the spec: `get_tx_meta` reads the Transaction Meta
(cell-set) column by transaction hash. -/
def get_tx_meta (s : Store) (tx_hash : Nat) : Option TransactionMeta :=
  match s COLUMN_CELL_SET (Key.hash tx_hash) with
  | some (Value.vTxMeta m) => some m
  | _ => none

/-- Modelled from the spec: `get_cell_meta` reads the Cell Meta column by
the (tx hash, output index) cell key. -/
def get_cell_meta (s : Store) (tx_hash : Nat) (index : Nat) : Option CellMetaData :=
  match s COLUMN_CELL_META (Key.cell tx_hash index) with
  | some (Value.vCellMeta d) => some d
  | _ => none

/-- Modelled from the spec: `get_block_header` reads the header column by
block hash. -/
def get_block_header (s : Store) (block_hash : Nat) : Option Header :=
  match s COLUMN_BLOCK_HEADER (Key.hash block_hash) with
  | some (Value.vHeader h) => some h
  | _ => none

/-- Modelled from the spec: `get_transaction_info` reads the Transaction
Info column by transaction hash. -/
def get_transaction_info (s : Store) (tx_hash : Nat) : Option TransactionInfo :=
  match s COLUMN_TRANSACTION_INFO (Key.hash tx_hash) with
  | some (Value.vInfo i) => some i
  | _ => none

/-- Modelled from the spec: epoch lookup by number goes through the
number→hash index entry and then the by-hash record. -/
def get_epoch_index (s : Store) (number : Nat) : Option Nat :=
  match s COLUMN_EPOCH (Key.num number) with
  | some (Value.vHash h) => some h
  | _ => none

def get_epoch_ext (s : Store) (hash : Nat) : Option EpochExt :=
  match s COLUMN_EPOCH (Key.hash hash) with
  | some (Value.vEpoch e) => some e
  | _ => none

def get_epoch_ext_by_number (s : Store) (number : Nat) : Option EpochExt :=
  (get_epoch_index s number).bind (get_epoch_ext s)

/-! ### Cell / Header providers -/

inductive CellStatus
  | Live (m : CellMetaData)
  | Dead
  | Unknown
  | Unspecified
  deriving DecidableEq, Repr

inductive HeaderStatus
  | LiveHeader (h : Header)
  | InclusionFaliure
  | Unknown
  | Unspecified
  deriving DecidableEq, Repr

/-- `CellProvider::cell` for `StoreTransaction`.  The
`.expect("store should be consistent with cell_set")` on a live bit whose
Cell Meta is missing is modelled as `none` (a panic); every normal return
is `some`. -/
def cell (s : Store) (out_point : OutPoint) : Option CellStatus :=
  match out_point.cell with
  | some cell_out_point =>
      match get_tx_meta s cell_out_point.tx_hash with
      | some tx_meta =>
          match tx_meta.is_dead cell_out_point.index with
          | some false =>
              match get_cell_meta s cell_out_point.tx_hash cell_out_point.index with
              | some cell_meta => some (CellStatus.Live cell_meta)
              | none => none
          | some true => some CellStatus.Dead
          | none => some CellStatus.Unknown
      | none => some CellStatus.Unknown
  | none => some CellStatus.Unspecified

/-- `HeaderProvider::header` for `StoreTransaction`. -/
def headerStatus (s : Store) (out_point : OutPoint) : HeaderStatus :=
  match out_point.block_hash with
  | some block_hash =>
      match get_block_header s block_hash with
      | some header =>
          match out_point.cell with
          | some cell_out_point =>
              match get_transaction_info s cell_out_point.tx_hash with
              | some info =>
                  if info.block_hash = block_hash then
                    HeaderStatus.LiveHeader header
                  else
                    HeaderStatus.InclusionFaliure
              | none => HeaderStatus.InclusionFaliure
          | none => HeaderStatus.LiveHeader header
      | none => HeaderStatus.Unknown
  | none => HeaderStatus.Unspecified

/-- The key set `attach_block` writes and `detach_block` deletes (they
iterate the same transactions, outputs and uncles): Transaction Infos for
the block's transactions, Cell Metas for their outputs, the uncle presence
markers, and the number↔hash index pair. -/
def attachTouches (block : Block) (c : Col) (k : Key) : Bool :=
  match c, k with
  | COLUMN_TRANSACTION_INFO, Key.hash h => (txHashes block).contains h
  | COLUMN_CELL_META, Key.cell h i =>
      block.transactions.any (fun tx => tx.hash = h && decide (i < tx.outputs.length))
  | COLUMN_UNCLES, Key.hash u => block.uncles.contains u
  | COLUMN_INDEX, Key.num n => decide (n = block.header.number)
  | COLUMN_INDEX, Key.hash h => decide (h = block.header.hash)
  | _, _ => false

/-- The attach-then-detach composite of the invertibility property:
`attach_block`, `attach_block_cell`, `detach_block`, `detach_block_cell`
on one block, threading the staged store and the Cell-Set Index. -/
def attachDetachRoundTrip (s : Store) (cs : CellSet) (block : Block) :
    Store × CellSet :=
  let s1 := attach_block s block
  let p := attach_block_cell s1 cs block
  let s3 := detach_block p.1 block
  detach_block_cell s3 p.2 block

/-! ### `InternalError` (`src/error/src/internal.rs`) -/

inductive InternalErrorKind
  | CapacityOverflow
  | TransactionPoolFull
  | PoolTransactionDuplicated
  | DataCorrupted
  | Database
  | VM
  | System
  deriving DecidableEq, Repr

/-- `derive(Display)` on the kind enum renders the variant name. -/
def InternalErrorKind.display : InternalErrorKind → String
  | .CapacityOverflow => "CapacityOverflow"
  | .TransactionPoolFull => "TransactionPoolFull"
  | .PoolTransactionDuplicated => "PoolTransactionDuplicated"
  | .DataCorrupted => "DataCorrupted"
  | .Database => "Database"
  | .VM => "VM"
  | .System => "System"

/-- `InternalError` wraps a `Context<InternalErrorKind>`: a kind plus an
optional underlying cause (`Fail::cause`), the latter rendered by its own
display string. -/
structure InternalError where
  kind : InternalErrorKind
  cause : Option String
  deriving DecidableEq, Repr

/-- `impl fmt::Display for InternalError`. -/
def InternalError.display (e : InternalError) : String :=
  match e.cause with
  | some cause => e.kind.display ++ "(" ++ cause ++ ")"
  | none => e.kind.display

/-! ### `LoadScriptHash` syscall
(`src/script/src/syscalls/load_script_hash.rs`) -/

/-- RISC-V register indices used by the syscall. -/
def A0 : Nat := 10
def A7 : Nat := 17

/-- Modelled from the spec: the syscall-number constant
(`LOAD_SCRIPT_HASH_SYSCALL_NUMBER`, declared outside `src/`). -/
def LOAD_SCRIPT_HASH_SYSCALL_NUMBER : Nat := 2061

/-- Modelled from the spec: the `SUCCESS` return code written to `A0`. -/
def SUCCESS : Nat := 0

/-- A `SupportMachine` state: registers, byte-addressable memory and the
cycle counter.  Register values and bytes are `Nat`s (the source's `u64`
arithmetic does not overflow here: only `addr + i` and `cycles + 320` are
computed). -/
structure Machine where
  registers : Nat → Nat
  memory : Nat → Nat
  cycles : Nat

def Machine.set_register (m : Machine) (r : Nat) (v : Nat) : Machine :=
  { m with registers := fun r' => if r' = r then v else m.registers r' }

def Machine.add_cycles (m : Machine) (n : Nat) : Machine :=
  { m with cycles := m.cycles + n }

/-- A fixed 32-byte script hash (`ckb_types::packed::Byte32`). -/
structure Byte32 where
  data : List Nat
  len32 : data.length = 32
  deriving DecidableEq

/-- Modelled from the spec: `store_data` (syscalls/utils.rs, not under
`src/`) copies the raw bytes into VM-addressable memory at the address held
in `A0`. -/
def store_data (m : Machine) (data : List Nat) : Machine :=
  let addr := m.registers A0
  { m with
    memory := fun a =>
      if addr ≤ a ∧ a < addr + data.length then data.getD (a - addr) 0
      else m.memory a }

structure LoadScriptHash where
  hash : Byte32

/-- `Syscalls::ecall` for `LoadScriptHash`: on a matching `A7`, copy the
hash bytes, set `A0` to `SUCCESS`, charge `data.len() * 10` cycles and
return `true`; otherwise return `false` untouched. -/
def LoadScriptHash.ecall (sys : LoadScriptHash) (m : Machine) : Bool × Machine :=
  if m.registers A7 ≠ LOAD_SCRIPT_HASH_SYSCALL_NUMBER then (false, m)
  else
    let data := sys.hash.data
    let m := store_data m data
    let m := m.set_register A0 SUCCESS
    let m := m.add_cycles (data.length * 10)
    (true, m)

/-! ### Concrete fixtures used for witnesses and counterexamples -/

def sEmpty : Store := fun _ _ => none

def csEmpty : CellSet := fun _ => none

/-- A genesis-style block: one cellbase transaction (hash 1, one output),
one uncle (hash 2). -/
def blockA : Block :=
  { header := ⟨10, 5, 0⟩,
    transactions := [⟨1, [], [⟨50, 0⟩], true⟩],
    uncles := [2], proposals := [] }

/-- A live one-output meta for transaction 5. -/
def metaLive5 : TransactionMeta := ⟨1, 0, 2, false, [false]⟩

/-- A store whose cell-set column already holds the meta of transaction 5,
while the in-memory index does not. -/
def sC2 : Store := fun c k =>
  if c = COLUMN_CELL_SET ∧ k = Key.hash 5 then some (Value.vTxMeta metaLive5)
  else none

/-- A block with one non-cellbase transaction (hash 9) spending output 0 of
the earlier transaction 5. -/
def blockB : Block :=
  { header := ⟨20, 6, 0⟩,
    transactions := [⟨9, [⟨none, some ⟨5, 0⟩⟩], [⟨10, 0⟩], false⟩],
    uncles := [], proposals := [] }

/-- A Cell-Set Index caching the live meta of transaction 5. -/
def csLive5 : CellSet := fun h => if h = 5 then some metaLive5 else none

/-- A live one-output meta for transaction 7. -/
def metaC10 : TransactionMeta := ⟨1, 0, 3, false, [false]⟩

/-- A store holding only the Transaction Meta of transaction 7. -/
def sC10 : Store := fun c k =>
  if c = COLUMN_CELL_SET ∧ k = Key.hash 7 then some (Value.vTxMeta metaC10)
  else none

/-- `sC10` plus the matching Cell Meta of output (7, 0): a consistent
store. -/
def sFull : Store := fun c k =>
  if c = COLUMN_CELL_SET ∧ k = Key.hash 7 then some (Value.vTxMeta metaC10)
  else if c = COLUMN_CELL_META ∧ k = Key.cell 7 0 then
    some (Value.vCellMeta ⟨100, 4⟩)
  else none

/-- An out-point whose index 5 is beyond the one-bit bitmap of
transaction 7. -/
def opC10 : OutPoint := ⟨none, some ⟨7, 5⟩⟩

/-- The in-range out-point (7, 0). -/
def opLive : OutPoint := ⟨none, some ⟨7, 0⟩⟩

/-- A store recording block 11's header and that transaction 7 was
committed in block 11. -/
def sC4 : Store := fun c k =>
  if c = COLUMN_BLOCK_HEADER ∧ k = Key.hash 11 then some (Value.vHeader ⟨11, 10, 0⟩)
  else if c = COLUMN_TRANSACTION_INFO ∧ k = Key.hash 7 then
    some (Value.vInfo ⟨11, 10, 0, 0⟩)
  else none

/-- A reference naming block 11 and the cell (7, 0). -/
def opC4 : OutPoint := ⟨some 11, some ⟨7, 0⟩⟩

/-- A store that already holds a Transaction Info for hash 1 before
`blockA` (whose transaction also has hash 1) is attached. -/
def sC1 : Store := fun c k =>
  if c = COLUMN_TRANSACTION_INFO ∧ k = Key.hash 1 then
    some (Value.vInfo ⟨99, 0, 0, 0⟩)
  else none

/-- A machine whose `A7` holds the load-script-hash syscall number. -/
def mC8 : Machine :=
  ⟨fun r => if r = 17 then LOAD_SCRIPT_HASH_SYSCALL_NUMBER else 0, fun _ => 0, 5⟩

def sysC8 : LoadScriptHash := ⟨⟨List.replicate 32 7, by decide⟩⟩

/-! ## Lemmas and theorems -/

theorem insert_raw_same (s : Store) (c : Col) (k : Key) (v : Value) :
    insert_raw s c k v c k = some v := by
  simp [insert_raw]

theorem insert_raw_other (s : Store) (c : Col) (k : Key) (v : Value)
    (c' : Col) (k' : Key) (h : ¬(c' = c ∧ k' = k)) :
    insert_raw s c k v c' k' = s c' k' := by
  unfold insert_raw
  rw [if_neg h]

theorem deleteRaw_same (s : Store) (c : Col) (k : Key) :
    deleteRaw s c k c k = none := by
  simp [deleteRaw]

theorem deleteRaw_other (s : Store) (c : Col) (k : Key)
    (c' : Col) (k' : Key) (h : ¬(c' = c ∧ k' = k)) :
    deleteRaw s c k c' k' = s c' k' := by
  unfold deleteRaw
  rw [if_neg h]

/-- C9: for every `InternalError`, the `Display` rendering is exactly
`kind(cause)` when an underlying cause is present and exactly `kind` when
there is none. -/
theorem c9_internal_error_display :
    (∀ (k : InternalErrorKind) (c : String),
        InternalError.display ⟨k, some c⟩ = k.display ++ "(" ++ c ++ ")") ∧
    (∀ k : InternalErrorKind, InternalError.display ⟨k, none⟩ = k.display) :=
  ⟨fun _ _ => rfl, fun _ => rfl⟩

/-- C8: when `A7` holds the load-script-hash syscall number, `ecall` copies
the 32 hash bytes to the address in `A0`, sets `A0` to `SUCCESS`, charges
exactly 10 cycles per byte (320 cycles), returns `true`, and changes no
other register or memory; the embedding gives it no access to the store. -/
theorem c8_load_script_hash_ecall (sys : LoadScriptHash) (m : Machine)
    (hA7 : m.registers A7 = LOAD_SCRIPT_HASH_SYSCALL_NUMBER) :
    (sys.ecall m).1 = true ∧
    (sys.ecall m).2.registers A0 = SUCCESS ∧
    (sys.ecall m).2.cycles = m.cycles + 320 ∧
    (∀ i, i < 32 →
      (sys.ecall m).2.memory (m.registers A0 + i) = sys.hash.data.getD i 0) ∧
    (∀ a, a < m.registers A0 ∨ m.registers A0 + 32 ≤ a →
      (sys.ecall m).2.memory a = m.memory a) ∧
    (∀ r, r ≠ A0 → (sys.ecall m).2.registers r = m.registers r) := by
  have hlen := sys.hash.len32
  unfold LoadScriptHash.ecall
  rw [if_neg (by simp [hA7])]
  refine ⟨rfl, ?_, ?_, ?_, ?_, ?_⟩
  · simp [Machine.add_cycles, Machine.set_register]
  · simp [Machine.add_cycles, Machine.set_register, store_data, hlen]
  · intro i hi
    simp only [Machine.add_cycles, Machine.set_register, store_data, hlen]
    rw [if_pos ⟨Nat.le_add_right _ _, by omega⟩]
    congr 1
    omega
  · intro a ha
    simp only [Machine.add_cycles, Machine.set_register, store_data, hlen]
    rw [if_neg (by omega)]
  · intro r hr
    simp [Machine.add_cycles, Machine.set_register, store_data, hr]

theorem c8_witness :
    (sysC8.ecall mC8).1 = true ∧
    (sysC8.ecall mC8).2.registers A0 = SUCCESS ∧
    (sysC8.ecall mC8).2.cycles = mC8.cycles + 320 ∧
    (∀ i, i < 32 →
      (sysC8.ecall mC8).2.memory (mC8.registers A0 + i) = sysC8.hash.data.getD i 0) ∧
    (∀ a, a < mC8.registers A0 ∨ mC8.registers A0 + 32 ≤ a →
      (sysC8.ecall mC8).2.memory a = mC8.memory a) ∧
    (∀ r, r ≠ A0 → (sysC8.ecall mC8).2.registers r = mC8.registers r) :=
  c8_load_script_hash_ecall sysC8 mC8 (by decide)

/-- C6: after `insert_epoch_ext hash epoch`, the lookup by `hash` and the
lookup by `epoch.number` (through the number→hash index entry) resolve to
the same epoch record. -/
theorem c6_epoch_dual_key (s : Store) (hash : Nat) (epoch : EpochExt) :
    get_epoch_ext (insert_epoch_ext s hash epoch) hash = some epoch ∧
    get_epoch_ext_by_number (insert_epoch_ext s hash epoch) epoch.number =
      some epoch := by
  constructor <;>
    simp [insert_epoch_ext, get_epoch_ext, get_epoch_ext_by_number,
      get_epoch_index, insert_raw]

/-- C10: when a Transaction Meta exists but the referenced output index is
at or beyond its bitmap length, `cell` returns `Unknown`, exactly as when
no meta exists, and does not fail. -/
theorem c10_out_of_range_unknown (s : Store) (op : OutPoint)
    (c : CellOutPoint) (m : TransactionMeta) (hc : op.cell = some c)
    (hm : get_tx_meta s c.tx_hash = some m) (hlen : m.dead.length ≤ c.index) :
    cell s op = some CellStatus.Unknown := by
  have hd : m.is_dead c.index = none := by
    unfold TransactionMeta.is_dead
    exact List.get?_eq_none.mpr hlen
  simp [cell, hc, hm, hd]

theorem c10_witness : cell sC10 opC10 = some CellStatus.Unknown :=
  c10_out_of_range_unknown sC10 opC10 ⟨7, 5⟩ metaC10 rfl (by decide) (by decide)

/-- C3 counterexample: for out-point (7, 5) the Transaction Meta of
transaction 7 exists, yet `cell` returns `Unknown` — so "`Unknown` iff no
Transaction Meta exists" fails as stated. -/
theorem c3_counterexample :
    cell sC10 opC10 = some CellStatus.Unknown ∧
    get_tx_meta sC10 7 = some metaC10 := by
  decide

/-- C2 counterexample: transaction 5's meta exists in storage but not in
the passed-in Cell-Set Index; attaching `blockB` (which spends output
(5, 0)) leaves the stored meta's dead bit clear and stages nothing — there
is no read-through to storage. -/
theorem c2_counterexample :
    (attach_block_cell sC2 csEmpty blockB).1 COLUMN_CELL_SET (Key.hash 5) =
      some (Value.vTxMeta metaLive5) ∧
    (attach_block_cell sC2 csEmpty blockB).2 5 = none := by
  decide

/-- C1 counterexample: if the prior store already holds a Transaction Info
under hash 1 and `blockA`'s transaction also has hash 1, the detach deletes
the key outright, so the round trip does not restore the prior value. -/
theorem c1_counterexample :
    (attachDetachRoundTrip sC1 csEmpty blockA).1 COLUMN_TRANSACTION_INFO
        (Key.hash 1) ≠
      sC1 COLUMN_TRANSACTION_INFO (Key.hash 1) := by
  decide

/-- C3 (amended): assuming the spec's consistency invariant (every live bit
has a stored Cell Meta), `cell` always returns exactly one of the four
statuses: `Unspecified` iff the reference has no cell target; `Unknown` iff
no Transaction Meta exists **or the referenced index is beyond the meta's
bitmap**; `Dead` iff the in-range bit is set; `Live` iff the in-range bit
is clear, carrying the stored Cell Meta. -/
theorem c3_cell_status (s : Store) (op : OutPoint)
    (hcons : ∀ h m, get_tx_meta s h = some m → ∀ i,
      m.is_dead i = some false → (get_cell_meta s h i).isSome = true) :
    (∃ st, cell s op = some st) ∧
    (cell s op = some CellStatus.Unspecified ↔ op.cell = none) ∧
    (∀ c, op.cell = some c →
      ((cell s op = some CellStatus.Unknown ↔
          get_tx_meta s c.tx_hash = none ∨
            ∃ m, get_tx_meta s c.tx_hash = some m ∧ m.dead.length ≤ c.index) ∧
       (cell s op = some CellStatus.Dead ↔
          ∃ m, get_tx_meta s c.tx_hash = some m ∧
            m.is_dead c.index = some true) ∧
       ((∃ cm, cell s op = some (CellStatus.Live cm)) ↔
          ∃ m, get_tx_meta s c.tx_hash = some m ∧
            m.is_dead c.index = some false) ∧
       (∀ cm, cell s op = some (CellStatus.Live cm) →
          get_cell_meta s c.tx_hash c.index = some cm))) := by
  cases hop : op.cell with
  | none =>
      have hcell : cell s op = some CellStatus.Unspecified := by
        simp [cell, hop]
      refine ⟨⟨_, hcell⟩, by simp [hcell], ?_⟩
      intro c hc
      exact absurd hc (by simp)
  | some c0 =>
      have hmain : ∀ P : Prop,
          ((cell s op = some CellStatus.Unknown ↔
              get_tx_meta s c0.tx_hash = none ∨
                ∃ m, get_tx_meta s c0.tx_hash = some m ∧
                  m.dead.length ≤ c0.index) ∧
           (cell s op = some CellStatus.Dead ↔
              ∃ m, get_tx_meta s c0.tx_hash = some m ∧
                m.is_dead c0.index = some true) ∧
           ((∃ cm, cell s op = some (CellStatus.Live cm)) ↔
              ∃ m, get_tx_meta s c0.tx_hash = some m ∧
                m.is_dead c0.index = some false) ∧
           (∀ cm, cell s op = some (CellStatus.Live cm) →
              get_cell_meta s c0.tx_hash c0.index = some cm)) → P → P :=
        fun _ _ p => p
      clear hmain
      cases hm : get_tx_meta s c0.tx_hash with
      | none =>
          have hcell : cell s op = some CellStatus.Unknown := by
            simp [cell, hop, hm]
          refine ⟨⟨_, hcell⟩, by simp [hcell, hop], ?_⟩
          intro c hc
          injection hc with hc
          subst hc
          refine ⟨by simp [hcell, hm], by simp [hcell, hm], ?_, ?_⟩
          · simp [hcell, hm]
          · intro cm hcm
            rw [hcell] at hcm
            exact absurd hcm (by simp)
      | some m =>
          cases hd : m.is_dead c0.index with
          | none =>
              have hlen : m.dead.length ≤ c0.index := by
                have := hd
                unfold TransactionMeta.is_dead at this
                exact List.get?_eq_none.mp this
              have hcell : cell s op = some CellStatus.Unknown := by
                simp [cell, hop, hm, hd]
              refine ⟨⟨_, hcell⟩, by simp [hcell, hop], ?_⟩
              intro c hc
              injection hc with hc
              subst hc
              refine ⟨?_, by simp [hcell, hm, hd], ?_, ?_⟩
              · simp only [hcell, hm, true_iff]
                exact Or.inr ⟨m, rfl, hlen⟩
              · simp [hcell, hm, hd]
              · intro cm hcm
                rw [hcell] at hcm
                exact absurd hcm (by simp)
          | some b =>
              have hlt : c0.index < m.dead.length := by
                by_contra hcon
                have : m.is_dead c0.index = none := by
                  unfold TransactionMeta.is_dead
                  exact List.get?_eq_none.mpr (Nat.le_of_not_lt hcon)
                rw [this] at hd
                exact absurd hd (by simp)
              cases b with
              | true =>
                  have hcell : cell s op = some CellStatus.Dead := by
                    simp [cell, hop, hm, hd]
                  refine ⟨⟨_, hcell⟩, by simp [hcell, hop], ?_⟩
                  intro c hc
                  injection hc with hc
                  subst hc
                  refine ⟨?_, ?_, ?_, ?_⟩
                  · simp only [hcell, hm]
                    constructor
                    · intro hfalse
                      exact absurd hfalse (by simp)
                    · rintro (hfalse | ⟨m', hm', hlen'⟩)
                      · exact absurd hfalse (by simp)
                      · injection hm' with hm'
                        subst hm'
                        omega
                  · simp only [hcell, hm]
                    exact iff_of_true trivial ⟨m, rfl, hd⟩
                  · simp [hcell, hm, hd]
                  · intro cm hcm
                    rw [hcell] at hcm
                    exact absurd hcm (by simp)
              | false =>
                  have hsome := hcons c0.tx_hash m hm c0.index hd
                  rw [Option.isSome_iff_exists] at hsome
                  obtain ⟨cm0, hcm0⟩ := hsome
                  have hcell : cell s op = some (CellStatus.Live cm0) := by
                    simp [cell, hop, hm, hd, hcm0]
                  refine ⟨⟨_, hcell⟩, by simp [hcell, hop], ?_⟩
                  intro c hc
                  injection hc with hc
                  subst hc
                  refine ⟨?_, ?_, ?_, ?_⟩
                  · simp only [hcell, hm]
                    constructor
                    · intro hfalse
                      exact absurd hfalse (by simp)
                    · rintro (hfalse | ⟨m', hm', hlen'⟩)
                      · exact absurd hfalse (by simp)
                      · injection hm' with hm'
                        subst hm'
                        omega
                  · simp [hcell, hm, hd]
                  · simp only [hcell, hm]
                    exact iff_of_true ⟨cm0, rfl⟩ ⟨m, rfl, hd⟩
                  · intro cm hcm
                    rw [hcell] at hcm
                    injection hcm with hcm
                    injection hcm with hcm
                    rw [← hcm]
                    exact hcm0

theorem c3_witness :
    (∃ st, cell sFull opLive = some st) ∧
    (cell sFull opLive = some CellStatus.Unspecified ↔ opLive.cell = none) ∧
    (∀ c, opLive.cell = some c →
      ((cell sFull opLive = some CellStatus.Unknown ↔
          get_tx_meta sFull c.tx_hash = none ∨
            ∃ m, get_tx_meta sFull c.tx_hash = some m ∧
              m.dead.length ≤ c.index) ∧
       (cell sFull opLive = some CellStatus.Dead ↔
          ∃ m, get_tx_meta sFull c.tx_hash = some m ∧
            m.is_dead c.index = some true) ∧
       ((∃ cm, cell sFull opLive = some (CellStatus.Live cm)) ↔
          ∃ m, get_tx_meta sFull c.tx_hash = some m ∧
            m.is_dead c.index = some false) ∧
       (∀ cm, cell sFull opLive = some (CellStatus.Live cm) →
          get_cell_meta sFull c.tx_hash c.index = some cm))) := by
  apply c3_cell_status sFull opLive
  intro h m hm i hd
  by_cases h7 : h = 7
  · subst h7
    have hmeta : m = metaC10 := by
      simp [get_tx_meta, sFull] at hm
      exact hm.symm
    subst hmeta
    have hi : i = 0 := by
      rcases i with _ | i
      · rfl
      · exfalso
        simp [TransactionMeta.is_dead, metaC10] at hd
    subst hi
    decide
  · exfalso
    simp [get_tx_meta, sFull, h7] at hm

/-- C4: for a reference naming both a block hash and a cell, `Unknown` is
returned exactly when the named header is absent; when the header is
present, `LiveHeader` is returned exactly when the stored Transaction Info
records that very block hash, and `InclusionFaliure` exactly otherwise
(mismatch or missing info). -/
theorem c4_header_inclusion (s : Store) (op : OutPoint) (bh : Nat)
    (c : CellOutPoint) (hb : op.block_hash = some bh) (hc : op.cell = some c) :
    (headerStatus s op = HeaderStatus.Unknown ↔ get_block_header s bh = none) ∧
    (∀ hdr, get_block_header s bh = some hdr →
      ((headerStatus s op = HeaderStatus.LiveHeader hdr ↔
          ∃ info, get_transaction_info s c.tx_hash = some info ∧
            info.block_hash = bh) ∧
       (headerStatus s op = HeaderStatus.InclusionFaliure ↔
          ¬∃ info, get_transaction_info s c.tx_hash = some info ∧
            info.block_hash = bh))) := by
  cases hh : get_block_header s bh with
  | none =>
      have hst : headerStatus s op = HeaderStatus.Unknown := by
        simp [headerStatus, hb, hh]
      refine ⟨by simp [hst, hh], ?_⟩
      intro hdr hhdr
      exact absurd hhdr (by simp)
  | some hdr0 =>
      cases hi : get_transaction_info s c.tx_hash with
      | none =>
          have hst : headerStatus s op = HeaderStatus.InclusionFaliure := by
            simp [headerStatus, hb, hh, hc, hi]
          refine ⟨by simp [hst, hh], ?_⟩
          intro hdr hhdr
          injection hhdr with hhdr
          subst hhdr
          exact ⟨by simp [hst, hi], by simp [hst, hi]⟩
      | some info =>
          by_cases heq : info.block_hash = bh
          · have hst : headerStatus s op = HeaderStatus.LiveHeader hdr0 := by
              simp [headerStatus, hb, hh, hc, hi, heq]
            refine ⟨by simp [hst, hh], ?_⟩
            intro hdr hhdr
            injection hhdr with hhdr
            subst hhdr
            constructor
            · exact iff_of_true hst ⟨info, rfl, heq⟩
            · simp only [hst]
              constructor
              · intro hfalse
                exact absurd hfalse (by simp)
              · intro hno
                exact absurd ⟨info, rfl, heq⟩ hno
          · have hst : headerStatus s op = HeaderStatus.InclusionFaliure := by
              simp [headerStatus, hb, hh, hc, hi, heq]
            refine ⟨by simp [hst, hh], ?_⟩
            intro hdr hhdr
            injection hhdr with hhdr
            subst hhdr
            constructor
            · simp only [hst]
              constructor
              · intro hfalse
                exact absurd hfalse (by simp)
              · rintro ⟨info', hinfo', heq'⟩
                injection hinfo' with hinfo'
                subst hinfo'
                exact absurd heq' heq
            · refine iff_of_true hst ?_
              rintro ⟨info', hinfo', heq'⟩
              injection hinfo' with hinfo'
              subst hinfo'
              exact absurd heq' heq

theorem c4_witness :
    (headerStatus sC4 opC4 = HeaderStatus.Unknown ↔
      get_block_header sC4 11 = none) ∧
    (∀ hdr, get_block_header sC4 11 = some hdr →
      ((headerStatus sC4 opC4 = HeaderStatus.LiveHeader hdr ↔
          ∃ info, get_transaction_info sC4 (CellOutPoint.tx_hash ⟨7, 0⟩) =
            some info ∧ info.block_hash = 11) ∧
       (headerStatus sC4 opC4 = HeaderStatus.InclusionFaliure ↔
          ¬∃ info, get_transaction_info sC4 (CellOutPoint.tx_hash ⟨7, 0⟩) =
            some info ∧ info.block_hash = 11))) :=
  c4_header_inclusion sC4 opC4 11 ⟨7, 0⟩ rfl rfl

/-! ### Frame lemmas for `attach_block` / `detach_block` -/

theorem deleteRaw_none (s : Store) (c : Col) (k : Key) (c' : Col) (k' : Key)
    (h : s c' k' = none) : deleteRaw s c k c' k' = none := by
  unfold deleteRaw
  by_cases hck : c' = c ∧ k' = k
  · rw [if_pos hck]
  · rw [if_neg hck]
    exact h

theorem attachTxOutputs_other (tx_hash : Nat) (outs : List Output) :
    ∀ (s : Store) (i : Nat) (c : Col) (k : Key),
      (∀ j, j < outs.length → ¬(c = COLUMN_CELL_META ∧ k = Key.cell tx_hash (i + j))) →
      attachTxOutputs s tx_hash outs i c k = s c k := by
  induction outs with
  | nil =>
      intro s i c k _
      rfl
  | cons o rest ih =>
      intro s i c k hk
      simp only [attachTxOutputs]
      rw [ih _ _ _ _ ?_, insert_raw_other _ _ _ _ _ _ ?_]
      · have := hk 0 (by simp)
        rwa [Nat.add_zero] at this
      · intro j hj
        have := hk (j + 1) (by simp; omega)
        rwa [show i + (j + 1) = i + 1 + j by omega] at this

theorem attachTxs_other (block : Block) (txs : List Transaction) :
    ∀ (s : Store) (i : Nat) (c : Col) (k : Key),
      (∀ tx ∈ txs, ¬(c = COLUMN_TRANSACTION_INFO ∧ k = Key.hash tx.hash) ∧
        ∀ j, j < tx.outputs.length → ¬(c = COLUMN_CELL_META ∧ k = Key.cell tx.hash j)) →
      attachTxs s block txs i c k = s c k := by
  induction txs with
  | nil =>
      intro s i c k _
      rfl
  | cons tx rest ih =>
      intro s i c k hk
      simp only [attachTxs]
      rw [ih _ _ _ _ fun tx' h' => hk tx' (List.mem_cons_of_mem _ h')]
      rw [attachTxOutputs_other _ _ _ _ _ _ ?_]
      · exact insert_raw_other _ _ _ _ _ _ (hk tx (List.mem_cons_self _ _)).1
      · intro j hj
        have := (hk tx (List.mem_cons_self _ _)).2 j hj
        simpa using this

theorem attachUncles_other (us : List Nat) :
    ∀ (s : Store) (c : Col) (k : Key),
      (∀ u ∈ us, ¬(c = COLUMN_UNCLES ∧ k = Key.hash u)) →
      attachUncles s us c k = s c k := by
  induction us with
  | nil =>
      intro s c k _
      rfl
  | cons u rest ih =>
      intro s c k hk
      simp only [attachUncles]
      rw [ih _ _ _ fun u' h' => hk u' (List.mem_cons_of_mem _ h')]
      exact insert_raw_other _ _ _ _ _ _ (hk u (List.mem_cons_self _ _))

/-- If `attach_block` does not touch `(c, k)`, it preserves it. -/
theorem attach_block_preserve (s : Store) (block : Block) (c : Col) (k : Key)
    (h : attachTouches block c k = false) :
    attach_block s block c k = s c k := by
  have hidxh : ¬(c = COLUMN_INDEX ∧ k = Key.hash block.header.hash) := by
    rintro ⟨rfl, rfl⟩
    simp [attachTouches] at h
  have hidxn : ¬(c = COLUMN_INDEX ∧ k = Key.num block.header.number) := by
    rintro ⟨rfl, rfl⟩
    simp [attachTouches] at h
  have huncle : ∀ u ∈ block.uncles, ¬(c = COLUMN_UNCLES ∧ k = Key.hash u) := by
    intro u hu hck
    obtain ⟨rfl, rfl⟩ := hck
    simp [attachTouches] at h
    exact h hu
  have htx : ∀ tx ∈ block.transactions,
      ¬(c = COLUMN_TRANSACTION_INFO ∧ k = Key.hash tx.hash) ∧
      ∀ j, j < tx.outputs.length → ¬(c = COLUMN_CELL_META ∧ k = Key.cell tx.hash j) := by
    intro tx htxm
    constructor
    · rintro ⟨rfl, rfl⟩
      simp [attachTouches, txHashes] at h
      exact h tx htxm rfl
    · intro j hj hck
      obtain ⟨rfl, rfl⟩ := hck
      simp [attachTouches] at h
      exact absurd hj (Nat.not_lt.mpr (h tx htxm rfl))
  unfold attach_block
  rw [insert_raw_other _ _ _ _ _ _ hidxh, attachUncles_other _ _ _ _ huncle,
    insert_raw_other _ _ _ _ _ _ hidxn, attachTxs_other _ _ _ _ _ _ htx]

theorem detachTxOutputs_other (tx_hash : Nat) :
    ∀ (n : Nat) (s : Store) (i : Nat) (c : Col) (k : Key),
      (∀ j, j < n → ¬(c = COLUMN_CELL_META ∧ k = Key.cell tx_hash (i + j))) →
      detachTxOutputs s tx_hash n i c k = s c k := by
  intro n
  induction n with
  | zero =>
      intro s i c k _
      rfl
  | succ n' ih =>
      intro s i c k hk
      simp only [detachTxOutputs]
      rw [ih _ _ _ _ ?_, deleteRaw_other _ _ _ _ _ ?_]
      · have := hk 0 (by omega)
        rwa [Nat.add_zero] at this
      · intro j hj
        have := hk (j + 1) (by omega)
        rwa [show i + (j + 1) = i + 1 + j by omega] at this

theorem detachTxOutputs_none (tx_hash : Nat) :
    ∀ (n : Nat) (s : Store) (i : Nat) (c : Col) (k : Key),
      s c k = none → detachTxOutputs s tx_hash n i c k = none := by
  intro n
  induction n with
  | zero =>
      intro s i c k h
      exact h
  | succ n' ih =>
      intro s i c k h
      simp only [detachTxOutputs]
      exact ih _ _ _ _ (deleteRaw_none _ _ _ _ _ h)

theorem detachTxOutputs_deletes (tx_hash : Nat) :
    ∀ (n : Nat) (s : Store) (i j : Nat), i ≤ j → j < i + n →
      detachTxOutputs s tx_hash n i COLUMN_CELL_META (Key.cell tx_hash j) = none := by
  intro n
  induction n with
  | zero =>
      intro s i j h1 h2
      omega
  | succ n' ih =>
      intro s i j h1 h2
      simp only [detachTxOutputs]
      by_cases hji : j = i
      · subst hji
        exact detachTxOutputs_none _ _ _ _ _ _ (deleteRaw_same _ _ _)
      · exact ih _ _ _ (by omega) (by omega)

theorem detachTxs_other (txs : List Transaction) :
    ∀ (s : Store) (c : Col) (k : Key),
      (∀ tx ∈ txs, ¬(c = COLUMN_TRANSACTION_INFO ∧ k = Key.hash tx.hash) ∧
        ∀ j, j < tx.outputs.length → ¬(c = COLUMN_CELL_META ∧ k = Key.cell tx.hash j)) →
      detachTxs s txs c k = s c k := by
  induction txs with
  | nil =>
      intro s c k _
      rfl
  | cons tx rest ih =>
      intro s c k hk
      simp only [detachTxs]
      rw [ih _ _ _ fun tx' h' => hk tx' (List.mem_cons_of_mem _ h')]
      rw [detachTxOutputs_other _ _ _ _ _ _ ?_]
      · exact deleteRaw_other _ _ _ _ _ (hk tx (List.mem_cons_self _ _)).1
      · intro j hj
        have := (hk tx (List.mem_cons_self _ _)).2 j hj
        simpa using this

theorem detachTxs_none (txs : List Transaction) :
    ∀ (s : Store) (c : Col) (k : Key),
      s c k = none → detachTxs s txs c k = none := by
  induction txs with
  | nil =>
      intro s c k h
      exact h
  | cons tx rest ih =>
      intro s c k h
      simp only [detachTxs]
      exact ih _ _ _ (detachTxOutputs_none _ _ _ _ _ _ (deleteRaw_none _ _ _ _ _ h))

theorem detachTxs_deletes_info (txs : List Transaction) :
    ∀ (s : Store) (h : Nat), (∃ tx ∈ txs, tx.hash = h) →
      detachTxs s txs COLUMN_TRANSACTION_INFO (Key.hash h) = none := by
  induction txs with
  | nil =>
      rintro s h ⟨tx, htx, _⟩
      exact absurd htx (List.not_mem_nil _)
  | cons tx0 rest ih =>
      rintro s h ⟨tx, htx, hh⟩
      simp only [detachTxs]
      by_cases h0 : tx0.hash = h
      · apply detachTxs_none
        apply detachTxOutputs_none
        rw [← h0]
        exact deleteRaw_same _ _ _
      · rcases List.mem_cons.mp htx with rfl | hrest
        · exact absurd hh h0
        · exact ih _ _ ⟨tx, hrest, hh⟩

theorem detachTxs_deletes_cellmeta (txs : List Transaction) :
    ∀ (s : Store) (h j : Nat),
      (∃ tx ∈ txs, tx.hash = h ∧ j < tx.outputs.length) →
      detachTxs s txs COLUMN_CELL_META (Key.cell h j) = none := by
  induction txs with
  | nil =>
      rintro s h j ⟨tx, htx, _⟩
      exact absurd htx (List.not_mem_nil _)
  | cons tx0 rest ih =>
      rintro s h j ⟨tx, htx, hh, hj⟩
      simp only [detachTxs]
      by_cases hmatch : tx0.hash = h ∧ j < tx0.outputs.length
      · apply detachTxs_none
        rw [← hmatch.1]
        exact detachTxOutputs_deletes _ _ _ _ _ (Nat.zero_le _) (by omega)
      · rcases List.mem_cons.mp htx with rfl | hrest
        · exact absurd ⟨hh, hj⟩ hmatch
        · exact ih _ _ _ ⟨tx, hrest, hh, hj⟩

theorem detachUncles_other (us : List Nat) :
    ∀ (s : Store) (c : Col) (k : Key),
      (∀ u ∈ us, ¬(c = COLUMN_UNCLES ∧ k = Key.hash u)) →
      detachUncles s us c k = s c k := by
  induction us with
  | nil =>
      intro s c k _
      rfl
  | cons u rest ih =>
      intro s c k hk
      simp only [detachUncles]
      rw [ih _ _ _ fun u' h' => hk u' (List.mem_cons_of_mem _ h')]
      exact deleteRaw_other _ _ _ _ _ (hk u (List.mem_cons_self _ _))

theorem detachUncles_none (us : List Nat) :
    ∀ (s : Store) (c : Col) (k : Key),
      s c k = none → detachUncles s us c k = none := by
  induction us with
  | nil =>
      intro s c k h
      exact h
  | cons u rest ih =>
      intro s c k h
      simp only [detachUncles]
      exact ih _ _ _ (deleteRaw_none _ _ _ _ _ h)

theorem detachUncles_deletes (us : List Nat) :
    ∀ (s : Store) (u : Nat), u ∈ us →
      detachUncles s us COLUMN_UNCLES (Key.hash u) = none := by
  induction us with
  | nil =>
      intro s u hu
      exact absurd hu (List.not_mem_nil _)
  | cons u0 rest ih =>
      intro s u hu
      simp only [detachUncles]
      by_cases h0 : u0 = u
      · subst h0
        exact detachUncles_none _ _ _ _ (deleteRaw_same _ _ _)
      · rcases List.mem_cons.mp hu with rfl | hrest
        · exact absurd rfl h0
        · exact ih _ _ hrest

/-- If `attach_block` does not touch `(c, k)`, `detach_block` preserves
it (they delete and write the same key set). -/
theorem detach_block_preserve (s : Store) (block : Block) (c : Col) (k : Key)
    (h : attachTouches block c k = false) :
    detach_block s block c k = s c k := by
  have hidxh : ¬(c = COLUMN_INDEX ∧ k = Key.hash block.header.hash) := by
    rintro ⟨rfl, rfl⟩
    simp [attachTouches] at h
  have hidxn : ¬(c = COLUMN_INDEX ∧ k = Key.num block.header.number) := by
    rintro ⟨rfl, rfl⟩
    simp [attachTouches] at h
  have huncle : ∀ u ∈ block.uncles, ¬(c = COLUMN_UNCLES ∧ k = Key.hash u) := by
    intro u hu hck
    obtain ⟨rfl, rfl⟩ := hck
    simp [attachTouches] at h
    exact h hu
  have htx : ∀ tx ∈ block.transactions,
      ¬(c = COLUMN_TRANSACTION_INFO ∧ k = Key.hash tx.hash) ∧
      ∀ j, j < tx.outputs.length → ¬(c = COLUMN_CELL_META ∧ k = Key.cell tx.hash j) := by
    intro tx htxm
    constructor
    · rintro ⟨rfl, rfl⟩
      simp [attachTouches, txHashes] at h
      exact h tx htxm rfl
    · intro j hj hck
      obtain ⟨rfl, rfl⟩ := hck
      simp [attachTouches] at h
      exact absurd hj (Nat.not_lt.mpr (h tx htxm rfl))
  unfold detach_block
  rw [deleteRaw_other _ _ _ _ _ hidxh, deleteRaw_other _ _ _ _ _ hidxn,
    detachUncles_other _ _ _ _ huncle, detachTxs_other _ _ _ _ htx]

/-- `detach_block` deletes every key `attach_block` touches. -/
theorem detach_block_deletes (s : Store) (block : Block) (c : Col) (k : Key)
    (h : attachTouches block c k = true) :
    detach_block s block c k = none := by
  cases c <;> cases k <;> simp [attachTouches] at h
  case COLUMN_TRANSACTION_INFO.hash h' =>
      obtain ⟨tx, htx, hh⟩ := List.mem_map.mp h
      unfold detach_block
      apply deleteRaw_none
      apply deleteRaw_none
      apply detachUncles_none
      exact detachTxs_deletes_info _ _ _ ⟨tx, htx, hh⟩
  case COLUMN_CELL_META.cell h' i =>
      obtain ⟨tx, htx, hh, hi⟩ := h
      unfold detach_block
      apply deleteRaw_none
      apply deleteRaw_none
      apply detachUncles_none
      exact detachTxs_deletes_cellmeta _ _ _ _ ⟨tx, htx, hh, hi⟩
  case COLUMN_UNCLES.hash u =>
      unfold detach_block
      apply deleteRaw_none
      apply deleteRaw_none
      exact detachUncles_deletes _ _ _ h
  case COLUMN_INDEX.hash h' =>
      subst h
      unfold detach_block
      exact deleteRaw_same _ _ _
  case COLUMN_INDEX.num n =>
      subst h
      unfold detach_block
      apply deleteRaw_none
      exact deleteRaw_same _ _ _

/-- C7: `attach_block` stages writes only to the transaction-info,
cell-meta, index and uncle-presence columns; every other column — the
cell-set column in particular — is left unchanged, and the operation does
not take the in-memory Cell-Set Index at all. -/
theorem c7_attach_block_frame (s : Store) (block : Block) :
    (∀ c k, c ≠ COLUMN_TRANSACTION_INFO → c ≠ COLUMN_CELL_META →
      c ≠ COLUMN_INDEX → c ≠ COLUMN_UNCLES →
      attach_block s block c k = s c k) ∧
    (∀ k, attach_block s block COLUMN_CELL_SET k = s COLUMN_CELL_SET k) := by
  have hmain : ∀ c k, c ≠ COLUMN_TRANSACTION_INFO → c ≠ COLUMN_CELL_META →
      c ≠ COLUMN_INDEX → c ≠ COLUMN_UNCLES → attach_block s block c k = s c k := by
    intro c k h1 h2 h3 h4
    apply attach_block_preserve
    cases c
    all_goals first
      | exact absurd rfl h1
      | exact absurd rfl h2
      | exact absurd rfl h3
      | exact absurd rfl h4
      | (cases k <;> rfl)
  exact ⟨hmain, fun k =>
    hmain _ k (by decide) (by decide) (by decide) (by decide)⟩

theorem c7_witness :
    attach_block sEmpty blockA COLUMN_META Key.meta_tip =
      sEmpty COLUMN_META Key.meta_tip ∧
    attach_block sEmpty blockA COLUMN_CELL_SET (Key.hash 1) =
      sEmpty COLUMN_CELL_SET (Key.hash 1) := by
  obtain ⟨h1, h2⟩ := c7_attach_block_frame sEmpty blockA
  exact ⟨h1 _ _ (by decide) (by decide) (by decide) (by decide), h2 _⟩

/-! ### Characterization of the `attach_block_cell` / `detach_block_cell`
phases -/

theorem insertCS_same (cs : CellSet) (h : Nat) (m : TransactionMeta) :
    insertCS cs h m h = some m := by
  simp [insertCS]

theorem insertCS_other (cs : CellSet) (h : Nat) (m : TransactionMeta)
    (h' : Nat) (hne : h' ≠ h) : insertCS cs h m h' = cs h' := by
  simp [insertCS, hne]

theorem removeCS_same (cs : CellSet) (h : Nat) : removeCS cs h h = none := by
  simp [removeCS]

theorem removeCS_other (cs : CellSet) (h : Nat) (h' : Nat) (hne : h' ≠ h) :
    removeCS cs h h' = cs h' := by
  simp [removeCS, hne]

theorem removeCS_none (cs : CellSet) (h : Nat) (h' : Nat)
    (hn : cs h' = none) : removeCS cs h h' = none := by
  by_cases hne : h' = h
  · subst hne
    exact removeCS_same _ _
  · rw [removeCS_other _ _ _ hne]
    exact hn

theorem update_cell_set_same (s : Store) (h : Nat) (m : TransactionMeta) :
    update_cell_set s h m COLUMN_CELL_SET (Key.hash h) =
      some (Value.vTxMeta m) :=
  insert_raw_same _ _ _ _

theorem update_cell_set_other (s : Store) (h : Nat) (m : TransactionMeta)
    (c : Col) (k : Key) (hck : ¬(c = COLUMN_CELL_SET ∧ k = Key.hash h)) :
    update_cell_set s h m c k = s c k :=
  insert_raw_other _ _ _ _ _ _ hck

theorem delete_cell_set_same (s : Store) (h : Nat) :
    delete_cell_set s h COLUMN_CELL_SET (Key.hash h) = none :=
  deleteRaw_same _ _ _

theorem delete_cell_set_other (s : Store) (h : Nat) (c : Col) (k : Key)
    (hck : ¬(c = COLUMN_CELL_SET ∧ k = Key.hash h)) :
    delete_cell_set s h c k = s c k :=
  deleteRaw_other _ _ _ _ _ hck

theorem acbPhase2_fst_other (block : Block) (l : List Nat) :
    ∀ (acc : Store × CellSet) (c : Col) (k : Key),
      (∀ h ∈ l, ¬(c = COLUMN_CELL_SET ∧ k = Key.hash h)) →
      (acbPhase2 block l acc).1 c k = acc.1 c k := by
  induction l with
  | nil =>
      intro acc c k _
      rfl
  | cons h0 rest ih =>
      rintro ⟨s, cs⟩ c k hk
      simp only [acbPhase2]
      have hrest := fun h' hm => hk h' (List.mem_cons_of_mem _ hm)
      by_cases hsome : (newTxMeta block h0).isSome
      · rw [if_pos hsome]
        exact ih _ _ _ hrest
      · rw [if_neg hsome]
        cases hcs : cs h0 with
        | none => exact ih _ _ _ hrest
        | some m =>
            rw [ih _ _ _ hrest]
            exact update_cell_set_other _ _ _ _ _
              (hk h0 (List.mem_cons_self _ _))

theorem acbPhase2_snd_other (block : Block) (l : List Nat) :
    ∀ (acc : Store × CellSet) (h : Nat), h ∉ l →
      (acbPhase2 block l acc).2 h = acc.2 h := by
  induction l with
  | nil =>
      intro acc h _
      rfl
  | cons h0 rest ih =>
      rintro ⟨s, cs⟩ h hk
      have hne : h ≠ h0 := fun he => hk (he ▸ List.mem_cons_self _ _)
      have hrest : h ∉ rest := fun hm => hk (List.mem_cons_of_mem _ hm)
      simp only [acbPhase2]
      by_cases hsome : (newTxMeta block h0).isSome
      · rw [if_pos hsome]
        exact ih _ _ hrest
      · rw [if_neg hsome]
        cases hcs : cs h0 with
        | none => exact ih _ _ hrest
        | some m =>
            rw [ih _ _ hrest]
            exact insertCS_other _ _ _ _ hne

theorem acbPhase2_fst_mem (block : Block) (l : List Nat) :
    ∀ (acc : Store × CellSet) (h : Nat), l.Nodup → h ∈ l →
      (acbPhase2 block l acc).1 COLUMN_CELL_SET (Key.hash h) =
        if (newTxMeta block h).isSome then
          acc.1 COLUMN_CELL_SET (Key.hash h)
        else
          match acc.2 h with
          | some m =>
              some (Value.vTxMeta (setDeadList m (blockInputIndices block h)))
          | none => acc.1 COLUMN_CELL_SET (Key.hash h) := by
  induction l with
  | nil =>
      intro acc h _ hm
      exact absurd hm (List.not_mem_nil _)
  | cons h0 rest ih =>
      rintro ⟨s, cs⟩ h hnd hm
      obtain ⟨hnot0, hndrest⟩ := List.nodup_cons.mp hnd
      simp only [acbPhase2]
      by_cases hh : h = h0
      · subst hh
        have hother : ∀ h' ∈ rest,
            ¬(COLUMN_CELL_SET = COLUMN_CELL_SET ∧ Key.hash h = Key.hash h') := by
          rintro h' hm' ⟨-, hkk⟩
          injection hkk with hkk
          exact hnot0 (hkk ▸ hm')
        by_cases hsome : (newTxMeta block h).isSome
        · rw [if_pos hsome, if_pos hsome]
          exact acbPhase2_fst_other _ _ _ _ _ hother
        · rw [if_neg hsome, if_neg hsome]
          cases hcs : cs h with
          | none => exact acbPhase2_fst_other _ _ _ _ _ hother
          | some m =>
              rw [acbPhase2_fst_other _ _ _ _ _ hother]
              exact update_cell_set_same _ _ _
      · have hmrest : h ∈ rest := by
          rcases List.mem_cons.mp hm with he | hr
          · exact absurd he hh
          · exact hr
        by_cases hsome0 : (newTxMeta block h0).isSome
        · rw [if_pos hsome0]
          exact ih _ _ hndrest hmrest
        · rw [if_neg hsome0]
          cases hcs0 : cs h0 with
          | none => exact ih _ _ hndrest hmrest
          | some m0 =>
              rw [ih _ _ hndrest hmrest]
              have hfst : update_cell_set s h0
                  (setDeadList m0 (blockInputIndices block h0))
                  COLUMN_CELL_SET (Key.hash h) = s COLUMN_CELL_SET (Key.hash h) := by
                apply update_cell_set_other
                rintro ⟨-, hkk⟩
                injection hkk with hkk
                exact hh hkk
              have hsnd : insertCS cs h0
                  (setDeadList m0 (blockInputIndices block h0)) h = cs h :=
                insertCS_other _ _ _ _ hh
              dsimp only
              rw [hfst, hsnd]

theorem acbPhase2_snd_mem (block : Block) (l : List Nat) :
    ∀ (acc : Store × CellSet) (h : Nat), l.Nodup → h ∈ l →
      (acbPhase2 block l acc).2 h =
        if (newTxMeta block h).isSome then acc.2 h
        else (acc.2 h).map (fun m => setDeadList m (blockInputIndices block h)) := by
  induction l with
  | nil =>
      intro acc h _ hm
      exact absurd hm (List.not_mem_nil _)
  | cons h0 rest ih =>
      rintro ⟨s, cs⟩ h hnd hm
      obtain ⟨hnot0, hndrest⟩ := List.nodup_cons.mp hnd
      simp only [acbPhase2]
      by_cases hh : h = h0
      · subst hh
        by_cases hsome : (newTxMeta block h).isSome
        · rw [if_pos hsome, if_pos hsome]
          exact acbPhase2_snd_other _ _ _ _ hnot0
        · rw [if_neg hsome, if_neg hsome]
          cases hcs : cs h with
          | none => simp [acbPhase2_snd_other _ _ _ _ hnot0, hcs]
          | some m =>
              rw [acbPhase2_snd_other _ _ _ _ hnot0]
              simp [insertCS_same]
      · have hmrest : h ∈ rest := by
          rcases List.mem_cons.mp hm with he | hr
          · exact absurd he hh
          · exact hr
        by_cases hsome0 : (newTxMeta block h0).isSome
        · rw [if_pos hsome0]
          exact ih _ _ hndrest hmrest
        · rw [if_neg hsome0]
          cases hcs0 : cs h0 with
          | none => exact ih _ _ hndrest hmrest
          | some m0 =>
              rw [ih _ _ hndrest hmrest]
              dsimp only
              rw [insertCS_other _ _ _ _ hh]

theorem acbPhase3_fst_other (block : Block) (l : List Nat) :
    ∀ (acc : Store × CellSet) (c : Col) (k : Key),
      (∀ h ∈ l, ¬(c = COLUMN_CELL_SET ∧ k = Key.hash h)) →
      (acbPhase3 block l acc).1 c k = acc.1 c k := by
  induction l with
  | nil =>
      intro acc c k _
      rfl
  | cons h0 rest ih =>
      rintro ⟨s, cs⟩ c k hk
      simp only [acbPhase3]
      have hrest := fun h' hm => hk h' (List.mem_cons_of_mem _ hm)
      cases hmeta : attachedNewMeta block h0 with
      | none => exact ih _ _ _ hrest
      | some m =>
          rw [ih _ _ _ hrest]
          exact update_cell_set_other _ _ _ _ _ (hk h0 (List.mem_cons_self _ _))

theorem acbPhase3_snd_other (block : Block) (l : List Nat) :
    ∀ (acc : Store × CellSet) (h : Nat), h ∉ l →
      (acbPhase3 block l acc).2 h = acc.2 h := by
  induction l with
  | nil =>
      intro acc h _
      rfl
  | cons h0 rest ih =>
      rintro ⟨s, cs⟩ h hk
      have hne : h ≠ h0 := fun he => hk (he ▸ List.mem_cons_self _ _)
      have hrest : h ∉ rest := fun hm => hk (List.mem_cons_of_mem _ hm)
      simp only [acbPhase3]
      cases hmeta : attachedNewMeta block h0 with
      | none => exact ih _ _ hrest
      | some m =>
          rw [ih _ _ hrest]
          exact insertCS_other _ _ _ _ hne

theorem acbPhase3_fst_mem (block : Block) (l : List Nat) :
    ∀ (acc : Store × CellSet) (h : Nat), l.Nodup → h ∈ l →
      (acbPhase3 block l acc).1 COLUMN_CELL_SET (Key.hash h) =
        match attachedNewMeta block h with
        | some m => some (Value.vTxMeta m)
        | none => acc.1 COLUMN_CELL_SET (Key.hash h) := by
  induction l with
  | nil =>
      intro acc h _ hm
      exact absurd hm (List.not_mem_nil _)
  | cons h0 rest ih =>
      rintro ⟨s, cs⟩ h hnd hm
      obtain ⟨hnot0, hndrest⟩ := List.nodup_cons.mp hnd
      simp only [acbPhase3]
      by_cases hh : h = h0
      · subst hh
        have hother : ∀ h' ∈ rest,
            ¬(COLUMN_CELL_SET = COLUMN_CELL_SET ∧ Key.hash h = Key.hash h') := by
          rintro h' hm' ⟨-, hkk⟩
          injection hkk with hkk
          exact hnot0 (hkk ▸ hm')
        cases hmeta : attachedNewMeta block h with
        | none => exact acbPhase3_fst_other _ _ _ _ _ hother
        | some m =>
            rw [acbPhase3_fst_other _ _ _ _ _ hother]
            exact update_cell_set_same _ _ _
      · have hmrest : h ∈ rest := by
          rcases List.mem_cons.mp hm with he | hr
          · exact absurd he hh
          · exact hr
        cases hmeta : attachedNewMeta block h0 with
        | none => exact ih _ _ hndrest hmrest
        | some m0 =>
            rw [ih _ _ hndrest hmrest]
            have hfst : update_cell_set s h0 m0 COLUMN_CELL_SET (Key.hash h) =
                s COLUMN_CELL_SET (Key.hash h) := by
              apply update_cell_set_other
              rintro ⟨-, hkk⟩
              injection hkk with hkk
              exact hh hkk
            dsimp only
            rw [hfst]

theorem acbPhase3_snd_mem (block : Block) (l : List Nat) :
    ∀ (acc : Store × CellSet) (h : Nat), l.Nodup → h ∈ l →
      (acbPhase3 block l acc).2 h =
        match attachedNewMeta block h with
        | some m => some m
        | none => acc.2 h := by
  induction l with
  | nil =>
      intro acc h _ hm
      exact absurd hm (List.not_mem_nil _)
  | cons h0 rest ih =>
      rintro ⟨s, cs⟩ h hnd hm
      obtain ⟨hnot0, hndrest⟩ := List.nodup_cons.mp hnd
      simp only [acbPhase3]
      by_cases hh : h = h0
      · subst hh
        cases hmeta : attachedNewMeta block h with
        | none => exact acbPhase3_snd_other _ _ _ _ hnot0
        | some m =>
            rw [acbPhase3_snd_other _ _ _ _ hnot0]
            exact insertCS_same _ _ _
      · have hmrest : h ∈ rest := by
          rcases List.mem_cons.mp hm with he | hr
          · exact absurd he hh
          · exact hr
        cases hmeta : attachedNewMeta block h0 with
        | none => exact ih _ _ hndrest hmrest
        | some m0 =>
            rw [ih _ _ hndrest hmrest]
            dsimp only
            rw [insertCS_other _ _ _ _ hh]

theorem dbcPhase1_fst_other (block : Block) (l : List Nat) :
    ∀ (acc : Store × CellSet) (c : Col) (k : Key),
      (∀ h ∈ l, ¬(c = COLUMN_CELL_SET ∧ k = Key.hash h)) →
      (dbcPhase1 block l acc).1 c k = acc.1 c k := by
  induction l with
  | nil =>
      intro acc c k _
      rfl
  | cons h0 rest ih =>
      rintro ⟨s, cs⟩ c k hk
      simp only [dbcPhase1]
      have hrest := fun h' hm => hk h' (List.mem_cons_of_mem _ hm)
      by_cases hmem : h0 ∈ txHashes block
      · rw [if_pos hmem]
        exact ih _ _ _ hrest
      · rw [if_neg hmem]
        cases hcs : cs h0 with
        | none => exact ih _ _ _ hrest
        | some m =>
            rw [ih _ _ _ hrest]
            exact update_cell_set_other _ _ _ _ _
              (hk h0 (List.mem_cons_self _ _))

theorem dbcPhase1_snd_other (block : Block) (l : List Nat) :
    ∀ (acc : Store × CellSet) (h : Nat), h ∉ l →
      (dbcPhase1 block l acc).2 h = acc.2 h := by
  induction l with
  | nil =>
      intro acc h _
      rfl
  | cons h0 rest ih =>
      rintro ⟨s, cs⟩ h hk
      have hne : h ≠ h0 := fun he => hk (he ▸ List.mem_cons_self _ _)
      have hrest : h ∉ rest := fun hm => hk (List.mem_cons_of_mem _ hm)
      simp only [dbcPhase1]
      by_cases hmem : h0 ∈ txHashes block
      · rw [if_pos hmem]
        exact ih _ _ hrest
      · rw [if_neg hmem]
        cases hcs : cs h0 with
        | none => exact ih _ _ hrest
        | some m =>
            rw [ih _ _ hrest]
            exact insertCS_other _ _ _ _ hne

theorem dbcPhase1_fst_mem (block : Block) (l : List Nat) :
    ∀ (acc : Store × CellSet) (h : Nat), l.Nodup → h ∈ l →
      (dbcPhase1 block l acc).1 COLUMN_CELL_SET (Key.hash h) =
        if h ∈ txHashes block then acc.1 COLUMN_CELL_SET (Key.hash h)
        else
          match acc.2 h with
          | some m =>
              some (Value.vTxMeta (unsetDeadList m (blockInputIndices block h)))
          | none => acc.1 COLUMN_CELL_SET (Key.hash h) := by
  induction l with
  | nil =>
      intro acc h _ hm
      exact absurd hm (List.not_mem_nil _)
  | cons h0 rest ih =>
      rintro ⟨s, cs⟩ h hnd hm
      obtain ⟨hnot0, hndrest⟩ := List.nodup_cons.mp hnd
      simp only [dbcPhase1]
      by_cases hh : h = h0
      · subst hh
        have hother : ∀ h' ∈ rest,
            ¬(COLUMN_CELL_SET = COLUMN_CELL_SET ∧ Key.hash h = Key.hash h') := by
          rintro h' hm' ⟨-, hkk⟩
          injection hkk with hkk
          exact hnot0 (hkk ▸ hm')
        by_cases hmem : h ∈ txHashes block
        · rw [if_pos hmem, if_pos hmem]
          exact dbcPhase1_fst_other _ _ _ _ _ hother
        · rw [if_neg hmem, if_neg hmem]
          cases hcs : cs h with
          | none => exact dbcPhase1_fst_other _ _ _ _ _ hother
          | some m =>
              rw [dbcPhase1_fst_other _ _ _ _ _ hother]
              exact update_cell_set_same _ _ _
      · have hmrest : h ∈ rest := by
          rcases List.mem_cons.mp hm with he | hr
          · exact absurd he hh
          · exact hr
        by_cases hmem0 : h0 ∈ txHashes block
        · rw [if_pos hmem0]
          exact ih _ _ hndrest hmrest
        · rw [if_neg hmem0]
          cases hcs0 : cs h0 with
          | none => exact ih _ _ hndrest hmrest
          | some m0 =>
              rw [ih _ _ hndrest hmrest]
              have hfst : update_cell_set s h0
                  (unsetDeadList m0 (blockInputIndices block h0))
                  COLUMN_CELL_SET (Key.hash h) = s COLUMN_CELL_SET (Key.hash h) := by
                apply update_cell_set_other
                rintro ⟨-, hkk⟩
                injection hkk with hkk
                exact hh hkk
              have hsnd : insertCS cs h0
                  (unsetDeadList m0 (blockInputIndices block h0)) h = cs h :=
                insertCS_other _ _ _ _ hh
              dsimp only
              rw [hfst, hsnd]

theorem dbcPhase1_snd_mem (block : Block) (l : List Nat) :
    ∀ (acc : Store × CellSet) (h : Nat), l.Nodup → h ∈ l →
      (dbcPhase1 block l acc).2 h =
        if h ∈ txHashes block then acc.2 h
        else (acc.2 h).map (fun m => unsetDeadList m (blockInputIndices block h)) := by
  induction l with
  | nil =>
      intro acc h _ hm
      exact absurd hm (List.not_mem_nil _)
  | cons h0 rest ih =>
      rintro ⟨s, cs⟩ h hnd hm
      obtain ⟨hnot0, hndrest⟩ := List.nodup_cons.mp hnd
      simp only [dbcPhase1]
      by_cases hh : h = h0
      · subst hh
        by_cases hmem : h ∈ txHashes block
        · rw [if_pos hmem, if_pos hmem]
          exact dbcPhase1_snd_other _ _ _ _ hnot0
        · rw [if_neg hmem, if_neg hmem]
          cases hcs : cs h with
          | none => simp [dbcPhase1_snd_other _ _ _ _ hnot0, hcs]
          | some m =>
              rw [dbcPhase1_snd_other _ _ _ _ hnot0]
              simp [insertCS_same]
      · have hmrest : h ∈ rest := by
          rcases List.mem_cons.mp hm with he | hr
          · exact absurd he hh
          · exact hr
        by_cases hmem0 : h0 ∈ txHashes block
        · rw [if_pos hmem0]
          exact ih _ _ hndrest hmrest
        · rw [if_neg hmem0]
          cases hcs0 : cs h0 with
          | none => exact ih _ _ hndrest hmrest
          | some m0 =>
              rw [ih _ _ hndrest hmrest]
              dsimp only
              rw [insertCS_other _ _ _ _ hh]

theorem dbcPhase2_fst_other (l : List Nat) :
    ∀ (acc : Store × CellSet) (c : Col) (k : Key),
      (∀ h ∈ l, ¬(c = COLUMN_CELL_SET ∧ k = Key.hash h)) →
      (dbcPhase2 l acc).1 c k = acc.1 c k := by
  induction l with
  | nil =>
      intro acc c k _
      rfl
  | cons h0 rest ih =>
      rintro ⟨s, cs⟩ c k hk
      simp only [dbcPhase2]
      rw [ih _ _ _ fun h' hm => hk h' (List.mem_cons_of_mem _ hm)]
      exact delete_cell_set_other _ _ _ _ (hk h0 (List.mem_cons_self _ _))

theorem dbcPhase2_snd_other (l : List Nat) :
    ∀ (acc : Store × CellSet) (h : Nat), h ∉ l →
      (dbcPhase2 l acc).2 h = acc.2 h := by
  induction l with
  | nil =>
      intro acc h _
      rfl
  | cons h0 rest ih =>
      rintro ⟨s, cs⟩ h hk
      have hne : h ≠ h0 := fun he => hk (he ▸ List.mem_cons_self _ _)
      simp only [dbcPhase2]
      rw [ih _ _ fun hm => hk (List.mem_cons_of_mem _ hm)]
      exact removeCS_other _ _ _ hne

theorem dbcPhase2_fst_none (l : List Nat) :
    ∀ (acc : Store × CellSet) (c : Col) (k : Key),
      acc.1 c k = none → (dbcPhase2 l acc).1 c k = none := by
  induction l with
  | nil =>
      intro acc c k h
      exact h
  | cons h0 rest ih =>
      rintro ⟨s, cs⟩ c k h
      simp only [dbcPhase2]
      exact ih _ _ _ (deleteRaw_none _ _ _ _ _ h)

theorem dbcPhase2_snd_none (l : List Nat) :
    ∀ (acc : Store × CellSet) (h : Nat),
      acc.2 h = none → (dbcPhase2 l acc).2 h = none := by
  induction l with
  | nil =>
      intro acc h hn
      exact hn
  | cons h0 rest ih =>
      rintro ⟨s, cs⟩ h hn
      simp only [dbcPhase2]
      exact ih _ _ (removeCS_none _ _ _ hn)

theorem dbcPhase2_fst_mem (l : List Nat) :
    ∀ (acc : Store × CellSet) (h : Nat), h ∈ l →
      (dbcPhase2 l acc).1 COLUMN_CELL_SET (Key.hash h) = none := by
  induction l with
  | nil =>
      intro acc h hm
      exact absurd hm (List.not_mem_nil _)
  | cons h0 rest ih =>
      rintro ⟨s, cs⟩ h hm
      simp only [dbcPhase2]
      by_cases hh : h = h0
      · subst hh
        exact dbcPhase2_fst_none _ _ _ _ (delete_cell_set_same _ _)
      · have hmrest : h ∈ rest := by
          rcases List.mem_cons.mp hm with he | hr
          · exact absurd he hh
          · exact hr
        exact ih _ _ hmrest

theorem dbcPhase2_snd_mem (l : List Nat) :
    ∀ (acc : Store × CellSet) (h : Nat), h ∈ l →
      (dbcPhase2 l acc).2 h = none := by
  induction l with
  | nil =>
      intro acc h hm
      exact absurd hm (List.not_mem_nil _)
  | cons h0 rest ih =>
      rintro ⟨s, cs⟩ h hm
      simp only [dbcPhase2]
      by_cases hh : h = h0
      · subst hh
        exact dbcPhase2_snd_none _ _ _ (removeCS_same _ _)
      · have hmrest : h ∈ rest := by
          rcases List.mem_cons.mp hm with he | hr
          · exact absurd he hh
          · exact hr
        exact ih _ _ hmrest

/-! ### Full characterizations of `attach_block_cell` / `detach_block_cell` -/

theorem newTxMeta_isSome_iff (block : Block) (h : Nat) :
    (newTxMeta block h).isSome = true ↔ h ∈ txHashes block := by
  unfold newTxMeta
  rw [Option.isSome_map', List.find?_isSome]
  constructor
  · rintro ⟨tx, htx, hp⟩
    rw [List.mem_reverse] at htx
    simp only [decide_eq_true_eq] at hp
    exact List.mem_map.mpr ⟨tx, htx, hp⟩
  · intro hmem
    obtain ⟨tx, htx, hh⟩ := List.mem_map.mp hmem
    exact ⟨tx, List.mem_reverse.mpr htx, by simp [hh]⟩

theorem txHashKeys_nodup (block : Block) : (txHashKeys block).Nodup := by
  unfold txHashKeys
  exact List.nodup_dedup _

theorem blockInputKeys_nodup (block : Block) : (blockInputKeys block).Nodup := by
  unfold blockInputKeys
  exact List.nodup_dedup _

theorem mem_txHashKeys (block : Block) (h : Nat) :
    h ∈ txHashKeys block ↔ h ∈ txHashes block := by
  unfold txHashKeys
  exact List.mem_dedup

theorem attachedNewMeta_isSome (block : Block) (h : Nat) :
    (attachedNewMeta block h).isSome = (newTxMeta block h).isSome := by
  simp [attachedNewMeta]

theorem attach_block_cell_fst_frame (s : Store) (cs : CellSet) (block : Block)
    (c : Col) (k : Key) (hck : ∀ h', ¬(c = COLUMN_CELL_SET ∧ k = Key.hash h')) :
    (attach_block_cell s cs block).1 c k = s c k := by
  unfold attach_block_cell
  rw [acbPhase3_fst_other _ _ _ _ _ fun h' _ => hck h',
    acbPhase2_fst_other _ _ _ _ _ fun h' _ => hck h']

theorem attach_block_cell_fst_char (s : Store) (cs : CellSet) (block : Block)
    (h : Nat) :
    (attach_block_cell s cs block).1 COLUMN_CELL_SET (Key.hash h) =
      match attachedNewMeta block h with
      | some m => some (Value.vTxMeta m)
      | none =>
          if h ∈ blockInputKeys block then
            match cs h with
            | some m =>
                some (Value.vTxMeta (setDeadList m (blockInputIndices block h)))
            | none => s COLUMN_CELL_SET (Key.hash h)
          else s COLUMN_CELL_SET (Key.hash h) := by
  unfold attach_block_cell
  cases hmeta : attachedNewMeta block h with
  | some m =>
      have hsome : (newTxMeta block h).isSome = true := by
        rw [← attachedNewMeta_isSome, hmeta]
        rfl
      have hmem : h ∈ txHashKeys block :=
        (mem_txHashKeys _ _).mpr ((newTxMeta_isSome_iff _ _).mp hsome)
      rw [acbPhase3_fst_mem _ _ _ _ (txHashKeys_nodup _) hmem, hmeta]
  | none =>
      have hnone : (newTxMeta block h).isSome = false := by
        rw [← attachedNewMeta_isSome, hmeta]
        rfl
      have hnotmem : h ∉ txHashes block := by
        intro hmem
        rw [(newTxMeta_isSome_iff _ _).mpr hmem] at hnone
        exact absurd hnone (by simp)
      have hnotkeys : h ∉ txHashKeys block := by
        intro hmem
        exact hnotmem ((mem_txHashKeys _ _).mp hmem)
      rw [acbPhase3_fst_other _ _ _ _ _ ?_]
      · by_cases hin : h ∈ blockInputKeys block
        · rw [acbPhase2_fst_mem _ _ _ _ (blockInputKeys_nodup _) hin, hnone]
          simp only [Bool.false_eq_true, if_false]
          rw [if_pos hin]
        · rw [acbPhase2_fst_other _ _ _ _ _ ?_]
          · rw [if_neg hin]
          · rintro h' hm' ⟨-, hkk⟩
            injection hkk with hkk
            exact hin (hkk ▸ hm')
      · rintro h' hm' ⟨-, hkk⟩
        injection hkk with hkk
        exact hnotkeys (hkk ▸ hm')

theorem attach_block_cell_snd_char (s : Store) (cs : CellSet) (block : Block)
    (h : Nat) :
    (attach_block_cell s cs block).2 h =
      match attachedNewMeta block h with
      | some m => some m
      | none =>
          if h ∈ blockInputKeys block then
            (cs h).map (fun m => setDeadList m (blockInputIndices block h))
          else cs h := by
  unfold attach_block_cell
  cases hmeta : attachedNewMeta block h with
  | some m =>
      have hsome : (newTxMeta block h).isSome = true := by
        rw [← attachedNewMeta_isSome, hmeta]
        rfl
      have hmem : h ∈ txHashKeys block :=
        (mem_txHashKeys _ _).mpr ((newTxMeta_isSome_iff _ _).mp hsome)
      rw [acbPhase3_snd_mem _ _ _ _ (txHashKeys_nodup _) hmem, hmeta]
  | none =>
      have hnone : (newTxMeta block h).isSome = false := by
        rw [← attachedNewMeta_isSome, hmeta]
        rfl
      have hnotmem : h ∉ txHashes block := by
        intro hmem
        rw [(newTxMeta_isSome_iff _ _).mpr hmem] at hnone
        exact absurd hnone (by simp)
      have hnotkeys : h ∉ txHashKeys block := by
        intro hmem
        exact hnotmem ((mem_txHashKeys _ _).mp hmem)
      rw [acbPhase3_snd_other _ _ _ _ hnotkeys]
      by_cases hin : h ∈ blockInputKeys block
      · rw [acbPhase2_snd_mem _ _ _ _ (blockInputKeys_nodup _) hin, hnone]
        simp only [Bool.false_eq_true, if_false]
        rw [if_pos hin]
      · rw [acbPhase2_snd_other _ _ _ _ hin]
        dsimp only
        rw [if_neg hin]

theorem detach_block_cell_fst_frame (s : Store) (cs : CellSet) (block : Block)
    (c : Col) (k : Key) (hck : ∀ h', ¬(c = COLUMN_CELL_SET ∧ k = Key.hash h')) :
    (detach_block_cell s cs block).1 c k = s c k := by
  unfold detach_block_cell
  rw [dbcPhase2_fst_other _ _ _ _ fun h' _ => hck h',
    dbcPhase1_fst_other _ _ _ _ _ fun h' _ => hck h']

theorem detach_block_cell_fst_char (s : Store) (cs : CellSet) (block : Block)
    (h : Nat) :
    (detach_block_cell s cs block).1 COLUMN_CELL_SET (Key.hash h) =
      if h ∈ txHashes block then none
      else if h ∈ blockInputKeys block then
        match cs h with
        | some m =>
            some (Value.vTxMeta (unsetDeadList m (blockInputIndices block h)))
        | none => s COLUMN_CELL_SET (Key.hash h)
      else s COLUMN_CELL_SET (Key.hash h) := by
  unfold detach_block_cell
  by_cases hmem : h ∈ txHashes block
  · rw [if_pos hmem]
    exact dbcPhase2_fst_mem _ _ _ ((mem_txHashKeys _ _).mpr hmem)
  · rw [if_neg hmem]
    have hnotkeys : h ∉ txHashKeys block := fun hk =>
      hmem ((mem_txHashKeys _ _).mp hk)
    rw [dbcPhase2_fst_other _ _ _ _ ?_]
    · by_cases hin : h ∈ blockInputKeys block
      · rw [dbcPhase1_fst_mem _ _ _ _ (blockInputKeys_nodup _) hin, if_neg hmem,
          if_pos hin]
      · rw [dbcPhase1_fst_other _ _ _ _ _ ?_, if_neg hin]
        rintro h' hm' ⟨-, hkk⟩
        injection hkk with hkk
        exact hin (hkk ▸ hm')
    · rintro h' hm' ⟨-, hkk⟩
      injection hkk with hkk
      exact hnotkeys (hkk ▸ hm')

theorem detach_block_cell_snd_char (s : Store) (cs : CellSet) (block : Block)
    (h : Nat) :
    (detach_block_cell s cs block).2 h =
      if h ∈ txHashes block then none
      else if h ∈ blockInputKeys block then
        (cs h).map (fun m => unsetDeadList m (blockInputIndices block h))
      else cs h := by
  unfold detach_block_cell
  by_cases hmem : h ∈ txHashes block
  · rw [if_pos hmem]
    exact dbcPhase2_snd_mem _ _ _ ((mem_txHashKeys _ _).mpr hmem)
  · rw [if_neg hmem]
    have hnotkeys : h ∉ txHashKeys block := fun hk =>
      hmem ((mem_txHashKeys _ _).mp hk)
    rw [dbcPhase2_snd_other _ _ _ hnotkeys]
    by_cases hin : h ∈ blockInputKeys block
    · rw [dbcPhase1_snd_mem _ _ _ _ (blockInputKeys_nodup _) hin, if_neg hmem,
        if_pos hin]
    · rw [dbcPhase1_snd_other _ _ _ _ hin, if_neg hin]

/-! ### Bitmap set/unset round trip -/

theorem foldl_set_length (v : Bool) :
    ∀ (l : List Nat) (L : List Bool),
      (l.foldl (fun d i => d.set i v) L).length = L.length := by
  intro l
  induction l with
  | nil =>
      intro L
      rfl
  | cons i l ih =>
      intro L
      rw [List.foldl_cons, ih, List.length_set]

theorem foldl_set_get? (v : Bool) :
    ∀ (l : List Nat) (L : List Bool) (j : Nat),
      (l.foldl (fun d i => d.set i v) L).get? j =
        if j ∈ l ∧ j < L.length then some v else L.get? j := by
  intro l
  induction l with
  | nil =>
      intro L j
      simp
  | cons i l ih =>
      intro L j
      rw [List.foldl_cons, ih, List.length_set]
      by_cases hji : j = i
      · subst hji
        by_cases hlen : j < L.length
        · have hset : (L.set j v).get? j = some v := by
            rw [List.get?_set_eq, List.get?_eq_get hlen]
            rfl
          rw [if_pos (show j ∈ j :: l ∧ j < L.length from
            ⟨List.mem_cons_self _ _, hlen⟩)]
          by_cases hc : j ∈ l ∧ j < L.length
          · rw [if_pos hc]
          · rw [if_neg hc, hset]
        · have hnone1 : (L.set j v).get? j = none :=
            List.get?_eq_none.mpr (by rw [List.length_set]; omega)
          have hnone2 : L.get? j = none := List.get?_eq_none.mpr (by omega)
          rw [if_neg (fun hc => hlen hc.2), if_neg (fun hc => hlen hc.2),
            hnone1, hnone2]
      · have hset : (L.set i v).get? j = L.get? j :=
          List.get?_set_ne _ _ (fun he => hji he.symm)
        by_cases hc : j ∈ l ∧ j < L.length
        · rw [if_pos hc, if_pos ⟨List.mem_cons_of_mem _ hc.1, hc.2⟩]
        · rw [if_neg hc, hset, if_neg ?_]
          rintro ⟨hm, hl2⟩
          rcases List.mem_cons.mp hm with rfl | hm'
          · exact hji rfl
          · exact hc ⟨hm', hl2⟩

theorem setDeadList_spec :
    ∀ (l : List Nat) (m : TransactionMeta),
      setDeadList m l =
        ⟨m.block_number, m.epoch, m.block_hash, m.cellbase,
          l.foldl (fun d i => d.set i true) m.dead⟩ := by
  intro l
  induction l with
  | nil =>
      intro m
      rfl
  | cons i l ih =>
      intro m
      have hstep : setDeadList m (i :: l) = setDeadList (m.set_dead i) l := rfl
      rw [hstep, ih]
      rfl

theorem unsetDeadList_spec :
    ∀ (l : List Nat) (m : TransactionMeta),
      unsetDeadList m l =
        ⟨m.block_number, m.epoch, m.block_hash, m.cellbase,
          l.foldl (fun d i => d.set i false) m.dead⟩ := by
  intro l
  induction l with
  | nil =>
      intro m
      rfl
  | cons i l ih =>
      intro m
      have hstep : unsetDeadList m (i :: l) = unsetDeadList (m.unset_dead i) l := rfl
      rw [hstep, ih]
      rfl

/-- Setting the bits of `l` and then clearing them restores the bitmap,
provided every in-range bit of `l` was clear to begin with. -/
theorem unsetDead_setDead_roundtrip (m : TransactionMeta) (l : List Nat)
    (hl : ∀ i ∈ l, m.dead.getD i false = false) :
    unsetDeadList (setDeadList m l) l = m := by
  obtain ⟨bn, ep, bh, cb, d⟩ := m
  rw [setDeadList_spec, unsetDeadList_spec]
  dsimp only
  refine congrArg (TransactionMeta.mk bn ep bh cb) ?_
  apply List.ext_get?_iff.mpr
  intro j
  rw [foldl_set_get? false, foldl_set_length true, foldl_set_get? true]
  by_cases hc : j ∈ l ∧ j < d.length
  · rw [if_pos hc]
    have hgd : d.getD j false = false := hl j hc.1
    rw [List.getD_eq_get?, List.get?_eq_get hc.2] at hgd
    simp only [Option.getD_some] at hgd
    rw [List.get?_eq_get hc.2, hgd]
  · rw [if_neg hc, if_neg hc]

/-- `attachedNewMeta` is `none` exactly for hashes outside the block. -/
theorem attachedNewMeta_eq_none (block : Block) (h : Nat)
    (hout : h ∉ txHashes block) : attachedNewMeta block h = none := by
  cases hm : attachedNewMeta block h with
  | none => rfl
  | some m =>
      have hs : (newTxMeta block h).isSome = true := by
        rw [← attachedNewMeta_isSome, hm]
        rfl
      exact absurd ((newTxMeta_isSome_iff _ _).mp hs) hout

/-- C2 (amended): for an input spending a transaction created in an
earlier block, `attach_block_cell` consults only the passed-in Cell-Set
Index: when the meta is cached there, the dead bits are set and the
updated meta is staged and written back; when it is **not** cached, the
input is skipped entirely — no read-through to storage, no dead bit set,
nothing staged. -/
theorem c2_earlier_input_no_fallback (s : Store) (cs : CellSet)
    (block : Block) (h : Nat) (hin : h ∈ blockInputKeys block)
    (hout : h ∉ txHashes block) :
    ((attach_block_cell s cs block).2 h =
      (cs h).map (fun m => setDeadList m (blockInputIndices block h))) ∧
    (cs h = none →
      (attach_block_cell s cs block).1 COLUMN_CELL_SET (Key.hash h) =
        s COLUMN_CELL_SET (Key.hash h)) ∧
    (∀ m, cs h = some m →
      (attach_block_cell s cs block).1 COLUMN_CELL_SET (Key.hash h) =
        some (Value.vTxMeta (setDeadList m (blockInputIndices block h)))) := by
  have hmeta := attachedNewMeta_eq_none block h hout
  refine ⟨?_, ?_, ?_⟩
  · rw [attach_block_cell_snd_char, hmeta]
    dsimp only
    rw [if_pos hin]
  · intro hcs
    rw [attach_block_cell_fst_char, hmeta]
    dsimp only
    rw [if_pos hin, hcs]
  · intro m hcs
    rw [attach_block_cell_fst_char, hmeta]
    dsimp only
    rw [if_pos hin, hcs]

theorem c2_witness :
    ((attach_block_cell sC2 csLive5 blockB).2 5 =
      (csLive5 5).map (fun m => setDeadList m (blockInputIndices blockB 5))) ∧
    (csLive5 5 = none →
      (attach_block_cell sC2 csLive5 blockB).1 COLUMN_CELL_SET (Key.hash 5) =
        sC2 COLUMN_CELL_SET (Key.hash 5)) ∧
    (∀ m, csLive5 5 = some m →
      (attach_block_cell sC2 csLive5 blockB).1 COLUMN_CELL_SET (Key.hash 5) =
        some (Value.vTxMeta (setDeadList m (blockInputIndices blockB 5)))) :=
  c2_earlier_input_no_fallback sC2 csLive5 blockB 5 (by decide) (by decide)

/-- C5: within one `attach_block_cell` or `detach_block_cell`, every change
to the in-memory Cell-Set Index comes with the identical staged write
(resp. delete) in the cell-set column, so afterwards the staged column and
the in-memory map agree on every key the operation changed. -/
theorem c5_cell_set_lockstep (s : Store) (cs : CellSet) (block : Block) :
    (∀ h,
      ((attach_block_cell s cs block).1 COLUMN_CELL_SET (Key.hash h) ≠
          s COLUMN_CELL_SET (Key.hash h) ∨
        (attach_block_cell s cs block).2 h ≠ cs h) →
      (attach_block_cell s cs block).1 COLUMN_CELL_SET (Key.hash h) =
        ((attach_block_cell s cs block).2 h).map Value.vTxMeta) ∧
    (∀ h,
      ((detach_block_cell s cs block).1 COLUMN_CELL_SET (Key.hash h) ≠
          s COLUMN_CELL_SET (Key.hash h) ∨
        (detach_block_cell s cs block).2 h ≠ cs h) →
      (detach_block_cell s cs block).1 COLUMN_CELL_SET (Key.hash h) =
        ((detach_block_cell s cs block).2 h).map Value.vTxMeta) := by
  constructor
  · intro h hne
    rw [attach_block_cell_fst_char, attach_block_cell_snd_char] at hne ⊢
    cases hmeta : attachedNewMeta block h with
    | some m => rfl
    | none =>
        rw [hmeta] at hne
        dsimp only at hne ⊢
        by_cases hin : h ∈ blockInputKeys block
        · simp only [if_pos hin] at hne ⊢
          cases hcs : cs h with
          | some m => rfl
          | none =>
              rw [hcs] at hne
              dsimp only at hne
              rcases hne with hne | hne
              · exact absurd rfl hne
              · exact absurd rfl hne
        · simp only [if_neg hin] at hne ⊢
          rcases hne with hne | hne
          · exact absurd rfl hne
          · exact absurd rfl hne
  · intro h hne
    rw [detach_block_cell_fst_char, detach_block_cell_snd_char] at hne ⊢
    by_cases hmem : h ∈ txHashes block
    · simp only [if_pos hmem] at hne ⊢
      rfl
    · simp only [if_neg hmem] at hne ⊢
      by_cases hin : h ∈ blockInputKeys block
      · simp only [if_pos hin] at hne ⊢
        cases hcs : cs h with
        | some m => rfl
        | none =>
            rw [hcs] at hne
            dsimp only at hne
            rcases hne with hne | hne
            · exact absurd rfl hne
            · exact absurd rfl hne
      · simp only [if_neg hin] at hne ⊢
        rcases hne with hne | hne
        · exact absurd rfl hne
        · exact absurd rfl hne

theorem c5_witness :
    (attach_block_cell sEmpty csEmpty blockA).1 COLUMN_CELL_SET (Key.hash 1) =
      ((attach_block_cell sEmpty csEmpty blockA).2 1).map Value.vTxMeta :=
  (c5_cell_set_lockstep sEmpty csEmpty blockA).1 1 (Or.inr (by decide))

/-- C1 (amended): the attach/detach round trip restores the store on every
column and key, and the Cell-Set Index everywhere, provided the prior state
held none of the keys the attach writes afresh (transaction infos, cell
metas, index entries, uncle markers, and the cell-set records of the
block's own transactions), the referenced earlier outputs were live, and
the staged cell-set column agreed with the in-memory index on the
referenced earlier transactions. -/
theorem c1_roundtrip_inverse (s : Store) (cs : CellSet) (block : Block)
    (h1 : ∀ c k, attachTouches block c k = true → s c k = none)
    (h2 : ∀ h, h ∈ txHashes block →
      cs h = none ∧ s COLUMN_CELL_SET (Key.hash h) = none)
    (h3 : ∀ h, h ∈ blockInputKeys block → h ∉ txHashes block →
      s COLUMN_CELL_SET (Key.hash h) = (cs h).map Value.vTxMeta)
    (h4 : ∀ h m, h ∈ blockInputKeys block → h ∉ txHashes block →
      cs h = some m →
      ∀ i ∈ blockInputIndices block h, m.dead.getD i false = false) :
    (∀ c k, (attachDetachRoundTrip s cs block).1 c k = s c k) ∧
    (∀ h, (attachDetachRoundTrip s cs block).2 h = cs h) := by
  constructor
  · intro c k
    unfold attachDetachRoundTrip
    dsimp only
    by_cases hhash : ∃ h', c = COLUMN_CELL_SET ∧ k = Key.hash h'
    · obtain ⟨h', rfl, rfl⟩ := hhash
      have hT : attachTouches block COLUMN_CELL_SET (Key.hash h') = false := rfl
      rw [detach_block_cell_fst_char]
      by_cases hmem : h' ∈ txHashes block
      · rw [if_pos hmem]
        exact (h2 h' hmem).2.symm
      · rw [if_neg hmem]
        have hmeta := attachedNewMeta_eq_none block h' hmem
        by_cases hin : h' ∈ blockInputKeys block
        · rw [if_pos hin]
          rw [attach_block_cell_snd_char, hmeta]
          dsimp only
          rw [if_pos hin]
          cases hcs : cs h' with
          | none =>
              dsimp only [Option.map]
              rw [detach_block_preserve _ _ _ _ hT]
              rw [attach_block_cell_fst_char, hmeta]
              dsimp only
              rw [if_pos hin, hcs]
              exact attach_block_preserve _ _ _ _ hT
          | some m =>
              dsimp only [Option.map]
              rw [unsetDead_setDead_roundtrip m _ (h4 h' m hin hmem hcs)]
              rw [h3 h' hin hmem, hcs]
              rfl
        · rw [if_neg hin]
          rw [detach_block_preserve _ _ _ _ hT]
          rw [attach_block_cell_fst_char, hmeta]
          dsimp only
          rw [if_neg hin]
          exact attach_block_preserve _ _ _ _ hT
    · have hck : ∀ h', ¬(c = COLUMN_CELL_SET ∧ k = Key.hash h') :=
        fun h' hc => hhash ⟨h', hc⟩
      rw [detach_block_cell_fst_frame _ _ _ _ _ hck]
      by_cases htouch : attachTouches block c k = true
      · rw [detach_block_deletes _ _ _ _ htouch, h1 c k htouch]
      · rw [Bool.not_eq_true] at htouch
        rw [detach_block_preserve _ _ _ _ htouch,
          attach_block_cell_fst_frame _ _ _ _ _ hck,
          attach_block_preserve _ _ _ _ htouch]
  · intro h
    unfold attachDetachRoundTrip
    dsimp only
    rw [detach_block_cell_snd_char]
    by_cases hmem : h ∈ txHashes block
    · rw [if_pos hmem]
      exact (h2 h hmem).1.symm
    · rw [if_neg hmem]
      have hmeta := attachedNewMeta_eq_none block h hmem
      by_cases hin : h ∈ blockInputKeys block
      · rw [if_pos hin]
        rw [attach_block_cell_snd_char, hmeta]
        dsimp only
        rw [if_pos hin]
        cases hcs : cs h with
        | none =>
            rfl
        | some m =>
            dsimp only [Option.map]
            rw [unsetDead_setDead_roundtrip m _ (h4 h m hin hmem hcs)]
      · rw [if_neg hin]
        rw [attach_block_cell_snd_char, hmeta]
        dsimp only
        rw [if_neg hin]

theorem c1_witness :
    (attachDetachRoundTrip sEmpty csEmpty blockA).1 COLUMN_TRANSACTION_INFO
        (Key.hash 1) =
      sEmpty COLUMN_TRANSACTION_INFO (Key.hash 1) ∧
    (attachDetachRoundTrip sEmpty csEmpty blockA).2 1 = csEmpty 1 := by
  obtain ⟨hA, hB⟩ := c1_roundtrip_inverse sEmpty csEmpty blockA
    (fun c k _ => rfl) (fun h _ => ⟨rfl, rfl⟩) (fun h _ _ => rfl)
    (fun h m _ _ hcs => Option.noConfusion hcs)
  exact ⟨hA _ _, hB _⟩

end Ckb
